import Mathlib

/-!
Verification of the drsh shell (src/drsh.c) against its specification.

Shallow embedding conventions:
- bytes are `Nat` values (the C code reads them as `unsigned char`, 0..255);
  byte strings are `List Nat`;
- C functions on byte buffers are translated to structurally recursive Lean
  functions; looping C code becomes recursion on the remaining input;
- open-addressed hash tables (the atom table and the environment) are
  modelled extensionally: every probe of the C code compares the full key
  (for atoms the triple hash/length/bytes, for the environment the folded
  key atom), and probing from the hash bucket examines exactly the stored
  entries up to the first empty slot, so lookup is a search for the first
  stored entry whose key comparison succeeds.  The probe-order refinement
  only affects in which order non-matching entries are skipped;
- pointer equality of atoms is represented by equality of indices into the
  table's insertion-order list of interned strings (drsh frees no atoms).
-/

/-- A byte string: the contents of a `char*`/length pair in the C code. -/
abbrev ByteStr := List Nat

/-- Helper turning a Lean string literal of ASCII text into its byte list. -/
def drsh_bytes (s : String) : ByteStr := s.toList.map Char.toNat

/-- The per-byte case fold performed by `drsh_at_atomize`: `0x20 | c`. -/
def drsh_fold_byte (c : Nat) : Nat := c ||| 32

/-- The string fold performed by `drsh_at_atomize` when building the
`iatom` sibling: every byte gets `0x20` OR-ed in. -/
def drsh_fold (s : ByteStr) : ByteStr := s.map drsh_fold_byte

theorem drsh_fold_byte_idem (c : Nat) : drsh_fold_byte (drsh_fold_byte c) = drsh_fold_byte c := by
  simp [drsh_fold_byte, Nat.or_assoc]

theorem drsh_fold_idem (s : ByteStr) : drsh_fold (drsh_fold s) = drsh_fold s := by
  simp [drsh_fold, Function.comp, drsh_fold_byte_idem]

/-- ASCII lowercasing as the spec describes it: A-Z mapped to a-z, all
other bytes unchanged.  (Spec-side definition, used to compare the spec's
notion of "ASCII-case-equal" with what the code actually computes.) -/
def drsh_ascii_lower (c : Nat) : Nat := if 65 ≤ c ∧ c ≤ 90 then c + 32 else c

/-- The spec's "ASCII-case-equal" relation on byte strings, as a Bool. -/
def drsh_ascii_case_equal (a b : ByteStr) : Bool :=
  a.map drsh_ascii_lower == b.map drsh_ascii_lower

/-!
## byte_expansion_distance (src/drsh.c lines 549-615)

The C function is a pair of nested loops over (haystack, needle):
strip the longest matching prefix, then skip (and count) haystack bytes
until the next match, repeating.  Per processed byte it does exactly one
of: advance both strings (heads equal), or count-and-advance the haystack
(heads differ), or finish (`needle` empty: add the remaining haystack
length; `haystack` empty with `needle` nonempty: return -1).  The
recursion below performs the identical per-byte steps; the `needle_len >
haystack_len` guard at the top of the C outer loop is the initial guard
(on later iterations it is subsumed by the haystack-empty exit).
-/

/-- Loop body of `byte_expansion_distance`: `difference` is the running
count of skipped haystack bytes. -/
def drsh_bed_go : ByteStr → ByteStr → Int → Int
  | h, [], difference => difference + h.length
  | [], _ :: _, _ => -1
  | hh :: ht, nh :: nt, difference =>
    if hh = nh then drsh_bed_go ht nt difference
    else drsh_bed_go ht (nh :: nt) (difference + 1)

/-- `byte_expansion_distance` from src/drsh.c:549. -/
def byte_expansion_distance (haystack needle : ByteStr) : Int :=
  if needle.length > haystack.length then -1 else drsh_bed_go haystack needle 0

/-- Loop body of `byte_expansion_distance_icase`: identical to
`drsh_bed_go` except bytes are compared after OR-ing in `0x20`. -/
def drsh_bed_icase_go : ByteStr → ByteStr → Int → Int
  | h, [], difference => difference + h.length
  | [], _ :: _, _ => -1
  | hh :: ht, nh :: nt, difference =>
    if hh ||| 32 = nh ||| 32 then drsh_bed_icase_go ht nt difference
    else drsh_bed_icase_go ht (nh :: nt) (difference + 1)

/-- `byte_expansion_distance_icase` from src/drsh.c:583. -/
def byte_expansion_distance_icase (haystack needle : ByteStr) : Int :=
  if needle.length > haystack.length then -1 else drsh_bed_icase_go haystack needle 0

theorem drsh_cons_sublist_cons_ne {a b : Nat} {l₁ l₂ : List Nat} (hne : a ≠ b) :
    (a :: l₁).Sublist (b :: l₂) ↔ (a :: l₁).Sublist l₂ := by
  constructor
  · intro h
    cases h with
    | cons _ h => exact h
    | cons₂ => exact absurd rfl hne
  · intro h
    exact h.cons b

theorem drsh_bed_go_sublist {h n : ByteStr} (hs : n.Sublist h) (d : Int) :
    drsh_bed_go h n d = d + h.length - n.length := by
  induction h generalizing n d with
  | nil =>
    have : n = [] := List.sublist_nil.mp hs
    subst this
    simp [drsh_bed_go]
  | cons hh ht ih =>
    cases n with
    | nil => simp [drsh_bed_go]
    | cons nh nt =>
      by_cases he : hh = nh
      · subst he
        have hs' : nt.Sublist ht := List.cons_sublist_cons.mp hs
        simp only [drsh_bed_go, if_pos rfl, ih hs' d]
        simp [List.length_cons]
        omega
      · have hs' : (nh :: nt).Sublist ht := by
          rw [← drsh_cons_sublist_cons_ne (fun hc => he hc.symm)]
          exact hs
        simp only [drsh_bed_go, if_neg he, ih hs' (d + 1)]
        simp [List.length_cons]
        omega

theorem drsh_bed_go_not_sublist {h n : ByteStr} (hs : ¬ n.Sublist h) (d : Int) :
    drsh_bed_go h n d = -1 := by
  induction h generalizing n d with
  | nil =>
    cases n with
    | nil => exact absurd (List.nil_sublist _) hs
    | cons nh nt => simp [drsh_bed_go]
  | cons hh ht ih =>
    cases n with
    | nil => exact absurd (List.nil_sublist _) hs
    | cons nh nt =>
      by_cases he : hh = nh
      · subst he
        have hs' : ¬ nt.Sublist ht := fun hc => hs (List.cons_sublist_cons.mpr hc)
        simp only [drsh_bed_go, if_pos rfl]
        exact ih hs' d
      · have hs' : ¬ (nh :: nt).Sublist ht := by
          intro hc
          exact hs ((drsh_cons_sublist_cons_ne (fun hcc => he hcc.symm)).mpr hc)
        simp only [drsh_bed_go, if_neg he, ih hs' (d + 1)]

/-- C3: `byte_expansion_distance(h, n)` returns -1 exactly when `n` is not
an in-order byte subsequence of `h`, and returns `len h - len n` when it
is; the `_icase` variant satisfies the same specification after OR-ing
`0x20` into every byte of both strings. -/
theorem drsh_c3_expansion_distance (h n : ByteStr) :
    (byte_expansion_distance h n = -1 ↔ ¬ n.Sublist h) ∧
    (n.Sublist h → byte_expansion_distance h n = (h.length : Int) - (n.length : Int)) ∧
    (byte_expansion_distance_icase h n = -1 ↔ ¬ (drsh_fold n).Sublist (drsh_fold h)) ∧
    ((drsh_fold n).Sublist (drsh_fold h) →
      byte_expansion_distance_icase h n = (h.length : Int) - (n.length : Int)) := by
  have hicase : ∀ (h n : ByteStr) (d : Int),
      drsh_bed_icase_go h n d = drsh_bed_go (drsh_fold h) (drsh_fold n) d := by
    intro h
    induction h with
    | nil => intro n d; cases n <;> simp [drsh_bed_icase_go, drsh_bed_go, drsh_fold]
    | cons hh ht ih =>
      intro n d
      cases n with
      | nil => simp [drsh_bed_icase_go, drsh_bed_go, drsh_fold]
      | cons nh nt =>
        simp only [drsh_fold, List.map_cons, drsh_bed_icase_go, drsh_bed_go, drsh_fold_byte]
        by_cases he : hh ||| 32 = nh ||| 32
        · rw [if_pos he, if_pos he]
          have := ih nt d
          simpa [drsh_fold] using this
        · rw [if_neg he, if_neg he]
          have := ih (nh :: nt) (d + 1)
          simpa [drsh_fold, drsh_fold_byte] using this
  refine ⟨?_, ?_, ?_, ?_⟩
  · constructor
    · intro heq hsub
      by_cases hlen : n.length > h.length
      · exact absurd hsub.length_le (by omega)
      · rw [byte_expansion_distance, if_neg hlen, drsh_bed_go_sublist hsub] at heq
        have := hsub.length_le
        omega
    · intro hsub
      by_cases hlen : n.length > h.length
      · simp [byte_expansion_distance, if_pos hlen]
      · rw [byte_expansion_distance, if_neg hlen, drsh_bed_go_not_sublist hsub]
  · intro hsub
    have hlen := hsub.length_le
    rw [byte_expansion_distance, if_neg (by omega), drsh_bed_go_sublist hsub]
    omega
  · constructor
    · intro heq hsub
      by_cases hlen : n.length > h.length
      · have := hsub.length_le
        simp [drsh_fold] at this
        omega
      · rw [byte_expansion_distance_icase, if_neg hlen, hicase,
          drsh_bed_go_sublist hsub] at heq
        have := hsub.length_le
        simp [drsh_fold] at this heq
        omega
    · intro hsub
      by_cases hlen : n.length > h.length
      · simp [byte_expansion_distance_icase, if_pos hlen]
      · rw [byte_expansion_distance_icase, if_neg hlen, hicase,
          drsh_bed_go_not_sublist hsub]
  · intro hsub
    have hlen := hsub.length_le
    simp only [drsh_fold, List.length_map] at hlen
    rw [byte_expansion_distance_icase, if_neg (by omega), hicase, drsh_bed_go_sublist hsub]
    simp only [drsh_fold, List.length_map]
    omega

/-- Witness for C3 at a concrete input: "a" is a subsequence of "ba", and
"A" case-insensitively a subsequence of "ba". -/
theorem drsh_c3_expansion_distance_witness :
    byte_expansion_distance [98, 97] [97] = ([98, 97].length : Int) - ([97].length : Int) ∧
    byte_expansion_distance_icase [98, 97] [65] =
      ([98, 97].length : Int) - ([65].length : Int) := by
  refine ⟨(drsh_c3_expansion_distance [98, 97] [97]).2.1 ?_,
          (drsh_c3_expansion_distance [98, 97] [65]).2.2.2 ?_⟩
  · decide
  · decide

/-!
## Atom table (src/drsh.c lines 2726-2810, `drsh_at_atomize`)

`DrshAtomTable.atoms` lists the interned byte strings in insertion order;
an atom pointer is represented by its index in that list (atoms are never
freed or moved, so indices are stable identities).  `iatom` is the
parallel list of `a->iatom` sibling indices.

The C lookup probes the open-addressed index linearly from
`reduce32(hash, capacity)` and compares each candidate atom with
`atom->hash == hash && atom->len == length && memcmp(...) == 0`; a key is
interned iff some stored atom passes that triple comparison, so the
lookup is modelled as a first-match search over the stored atoms with the
identical triple condition (`drsh_at_find_from`).  The hash function is
platform dependent (CRC32C or MurmurHash32), so it is a parameter `h`;
`drsh_norm_hash` performs the `if(!hash) hash = 1024;` normalization and
the truncation to 32 bits.
-/

/-- Hash normalization from `drsh_at_atomize`: 32-bit truncation plus the
zero-avoidance rewrite to 1024. -/
def drsh_norm_hash (h : Nat) : Nat := if h % 2 ^ 32 = 0 then 1024 else h % 2 ^ 32

/-- First stored atom passing the (hash, length, bytes) comparison of the
probe loop in `drsh_at_atomize`. -/
def drsh_at_find_from (h : ByteStr → Nat) (s : ByteStr) : List ByteStr → Option Nat
  | [] => none
  | a :: as =>
    if drsh_norm_hash (h a) = drsh_norm_hash (h s) ∧ a.length = s.length ∧ a = s
    then some 0
    else (drsh_at_find_from h s as).map (· + 1)

/-- The atom table: interned strings in insertion order plus the parallel
`iatom` sibling indices. -/
structure DrshAtomTable where
  atoms : List ByteStr
  iatom : List Nat

/-- The recursive `drsh_at_atomize` call made for the lowercased copy of a
new key.  Such keys satisfy `drsh_fold s = s` (OR-ing `0x20` is
idempotent), so in the source this recursive call always takes the
"already lowercase" branch and sets the new atom's sibling to itself;
this function is that specialization, which makes `drsh_at_atomize`
non-recursive. -/
def drsh_at_insert_folded (h : ByteStr → Nat) (t : DrshAtomTable) (s : ByteStr) :
    DrshAtomTable × Nat :=
  match drsh_at_find_from h s t.atoms with
  | some i => (t, i)
  | none => (⟨t.atoms ++ [s], t.iatom ++ [t.atoms.length]⟩, t.atoms.length)

/-- `drsh_at_atomize` from src/drsh.c:2726: return the existing atom on a
triple match, otherwise intern the key; if some byte changes under
`0x20 | c`, also atomize the folded copy and store it as the sibling
(`a->iatom` is first stored as NULL, modelled by the placeholder self
index, then overwritten). -/
def drsh_at_atomize (h : ByteStr → Nat) (t : DrshAtomTable) (s : ByteStr) :
    DrshAtomTable × Nat :=
  match drsh_at_find_from h s t.atoms with
  | some i => (t, i)
  | none =>
    let i := t.atoms.length
    if drsh_fold s = s then
      (⟨t.atoms ++ [s], t.iatom ++ [i]⟩, i)
    else
      let t1 : DrshAtomTable := ⟨t.atoms ++ [s], t.iatom ++ [i]⟩
      let r := drsh_at_insert_folded h t1 (drsh_fold s)
      (⟨r.1.atoms, r.1.iatom.set i r.2⟩, i)

/-- Tables reachable from the empty table by a sequence of `atomize`
calls (all with the same platform hash function). -/
inductive DrshAtomReach (h : ByteStr → Nat) : DrshAtomTable → Prop
  | init : DrshAtomReach h ⟨[], []⟩
  | step (t : DrshAtomTable) (s : ByteStr) :
      DrshAtomReach h t → DrshAtomReach h (drsh_at_atomize h t s).1

/-- Table invariant: interned strings are pairwise distinct, `iatom` is
parallel to `atoms`, and each atom's sibling index points at the atom of
its folded form. -/
def DrshAtomInv (t : DrshAtomTable) : Prop :=
  t.atoms.Nodup ∧ t.iatom.length = t.atoms.length ∧
  ∀ (i : Nat) (a : ByteStr), t.atoms[i]? = some a →
    ∃ j, t.iatom[i]? = some j ∧ t.atoms[j]? = some (drsh_fold a)

theorem drsh_at_find_from_eq_none {h : ByteStr → Nat} {s : ByteStr} {l : List ByteStr} :
    drsh_at_find_from h s l = none ↔ s ∉ l := by
  induction l with
  | nil => simp [drsh_at_find_from]
  | cons a as ih =>
    by_cases hc : drsh_norm_hash (h a) = drsh_norm_hash (h s) ∧ a.length = s.length ∧ a = s
    · obtain ⟨-, -, rfl⟩ := hc
      simp [drsh_at_find_from]
    · have hne : a ≠ s := fun hs => hc (by subst hs; exact ⟨rfl, rfl, rfl⟩)
      simp only [drsh_at_find_from, if_neg hc, Option.map_eq_none', ih, List.mem_cons]
      constructor
      · intro h1 hmem
        rcases hmem with h2 | h2
        · exact hne h2.symm
        · exact h1 h2
      · intro h1 h2
        exact h1 (Or.inr h2)

theorem drsh_at_find_from_some {h : ByteStr → Nat} {s : ByteStr} {l : List ByteStr} {i : Nat}
    (hf : drsh_at_find_from h s l = some i) : l[i]? = some s := by
  induction l generalizing i with
  | nil => simp [drsh_at_find_from] at hf
  | cons a as ih =>
    by_cases hc : drsh_norm_hash (h a) = drsh_norm_hash (h s) ∧ a.length = s.length ∧ a = s
    · obtain ⟨-, -, rfl⟩ := hc
      rw [drsh_at_find_from, if_pos ⟨rfl, rfl, rfl⟩] at hf
      cases hf
      simp
    · rw [drsh_at_find_from, if_neg hc] at hf
      cases hi : drsh_at_find_from h s as with
      | none => rw [hi] at hf; simp at hf
      | some i' =>
        rw [hi] at hf
        simp at hf
        subst hf
        simpa using ih hi

theorem drsh_at_find_from_of_mem {h : ByteStr → Nat} {s : ByteStr} {l : List ByteStr}
    (hmem : s ∈ l) : ∃ i, drsh_at_find_from h s l = some i := by
  cases hf : drsh_at_find_from h s l with
  | none => exact absurd hmem (drsh_at_find_from_eq_none.mp hf)
  | some i => exact ⟨i, rfl⟩

theorem drsh_at_atomize_found {h : ByteStr → Nat} {t : DrshAtomTable} {s : ByteStr} {i : Nat}
    (hf : drsh_at_find_from h s t.atoms = some i) : drsh_at_atomize h t s = (t, i) := by
  simp [drsh_at_atomize, hf]

/-- Case analysis on one `atomize` call, with the table shapes it can
produce (assuming `iatom` is parallel to `atoms`). -/
theorem drsh_at_atomize_shape (h : ByteStr → Nat) (t : DrshAtomTable) (s : ByteStr)
    (hlen : t.iatom.length = t.atoms.length) :
    (∃ i, drsh_at_find_from h s t.atoms = some i ∧ drsh_at_atomize h t s = (t, i)) ∨
    (s ∉ t.atoms ∧ drsh_fold s = s ∧
      drsh_at_atomize h t s =
        (⟨t.atoms ++ [s], t.iatom ++ [t.atoms.length]⟩, t.atoms.length)) ∨
    (s ∉ t.atoms ∧ drsh_fold s ≠ s ∧
      (∃ j, (t.atoms ++ [s])[j]? = some (drsh_fold s) ∧
        drsh_at_atomize h t s = (⟨t.atoms ++ [s], t.iatom ++ [j]⟩, t.atoms.length))) ∨
    (s ∉ t.atoms ∧ drsh_fold s ≠ s ∧ drsh_fold s ∉ t.atoms ++ [s] ∧
      drsh_at_atomize h t s =
        (⟨t.atoms ++ [s, drsh_fold s],
          t.iatom ++ [t.atoms.length + 1, t.atoms.length + 1]⟩, t.atoms.length)) := by
  cases hf : drsh_at_find_from h s t.atoms with
  | some i => exact Or.inl ⟨i, rfl, drsh_at_atomize_found hf⟩
  | none =>
    have hmem : s ∉ t.atoms := drsh_at_find_from_eq_none.mp hf
    by_cases hfold : drsh_fold s = s
    · refine Or.inr (Or.inl ⟨hmem, hfold, ?_⟩)
      simp [drsh_at_atomize, hf, if_pos hfold]
    · cases hf2 : drsh_at_find_from h (drsh_fold s) (t.atoms ++ [s]) with
      | some j =>
        refine Or.inr (Or.inr (Or.inl ⟨hmem, hfold, j, drsh_at_find_from_some hf2, ?_⟩))
        simp only [drsh_at_atomize, hf, if_neg hfold, drsh_at_insert_folded, hf2]
        refine Prod.ext ?_ rfl
        refine congrArg₂ DrshAtomTable.mk rfl ?_
        rw [show t.atoms.length = t.iatom.length from hlen.symm,
          List.set_append_right _ _ (Nat.le_refl _)]
        simp
      | none =>
        have hmem2 : drsh_fold s ∉ t.atoms ++ [s] := drsh_at_find_from_eq_none.mp hf2
        refine Or.inr (Or.inr (Or.inr ⟨hmem, hfold, hmem2, ?_⟩))
        simp only [drsh_at_atomize, hf, if_neg hfold, drsh_at_insert_folded, hf2]
        refine Prod.ext ?_ rfl
        refine congrArg₂ DrshAtomTable.mk (by simp) ?_
        rw [List.append_assoc, show t.atoms.length = t.iatom.length from hlen.symm,
          List.set_append_right _ _ (Nat.le_refl _)]
        simp [List.length_append, hlen]

theorem drsh_getElem?_singleton {α : Type} {a b : α} {k : Nat}
    (h : ([a] : List α)[k]? = some b) : k = 0 ∧ b = a := by
  cases k with
  | zero => simp at h; exact ⟨rfl, h.symm⟩
  | succ k => simp at h

theorem drsh_getElem?_pair {α : Type} {a b c : α} {k : Nat}
    (h : ([a, b] : List α)[k]? = some c) : (k = 0 ∧ c = a) ∨ (k = 1 ∧ c = b) := by
  match k with
  | 0 => simp at h; exact Or.inl ⟨rfl, h.symm⟩
  | 1 => simp at h; exact Or.inr ⟨rfl, h.symm⟩
  | k + 2 => simp at h

theorem drsh_at_atomize_ret (h : ByteStr → Nat) (t : DrshAtomTable) (s : ByteStr)
    (hlen : t.iatom.length = t.atoms.length) :
    (drsh_at_atomize h t s).1.atoms[(drsh_at_atomize h t s).2]? = some s := by
  rcases drsh_at_atomize_shape h t s hlen with
    ⟨i, hf, heq⟩ | ⟨-, -, heq⟩ | ⟨-, -, j, hj, heq⟩ | ⟨-, -, -, heq⟩
  · rw [heq]; exact drsh_at_find_from_some hf
  · rw [heq]; exact List.getElem?_concat_length _ _
  · rw [heq]; exact List.getElem?_concat_length _ _
  · rw [heq]
    show (t.atoms ++ [s, drsh_fold s])[t.atoms.length]? = some s
    rw [show t.atoms ++ [s, drsh_fold s] = (t.atoms ++ [s]) ++ [drsh_fold s] by simp,
      List.getElem?_append_left (by simp)]
    exact List.getElem?_concat_length _ _

theorem drsh_at_atomize_grows (h : ByteStr → Nat) (t : DrshAtomTable) (s : ByteStr)
    (hlen : t.iatom.length = t.atoms.length) :
    ∃ u, (drsh_at_atomize h t s).1.atoms = t.atoms ++ u := by
  rcases drsh_at_atomize_shape h t s hlen with
    ⟨i, -, heq⟩ | ⟨-, -, heq⟩ | ⟨-, -, j, -, heq⟩ | ⟨-, -, -, heq⟩
  · exact ⟨[], by rw [heq]; simp⟩
  · exact ⟨[s], by rw [heq]⟩
  · exact ⟨[s], by rw [heq]⟩
  · exact ⟨[s, drsh_fold s], by rw [heq]⟩

theorem drsh_at_atomize_ret_lt (h : ByteStr → Nat) (t : DrshAtomTable) (s : ByteStr)
    (hlen : t.iatom.length = t.atoms.length) :
    (drsh_at_atomize h t s).2 < (drsh_at_atomize h t s).1.atoms.length := by
  have := drsh_at_atomize_ret h t s hlen
  exact (List.getElem?_eq_some.mp this).1

theorem drsh_at_atomize_inv (h : ByteStr → Nat) (t : DrshAtomTable) (s : ByteStr)
    (hinv : DrshAtomInv t) : DrshAtomInv (drsh_at_atomize h t s).1 := by
  obtain ⟨hnd, hlen, hsib⟩ := hinv
  have hsib_old : ∀ (u : List ByteStr) (v : List Nat) (i : Nat) (a : ByteStr),
      i < t.atoms.length → t.atoms[i]? = some a →
      ∃ j, (t.iatom ++ v)[i]? = some j ∧ (t.atoms ++ u)[j]? = some (drsh_fold a) := by
    intro u v i a hi ha
    obtain ⟨j, hj1, hj2⟩ := hsib i a ha
    obtain ⟨hjlt, -⟩ := List.getElem?_eq_some.mp hj2
    exact ⟨j, by rw [List.getElem?_append_left (hlen ▸ hi)]; exact hj1,
           by rw [List.getElem?_append_left hjlt]; exact hj2⟩
  rcases drsh_at_atomize_shape h t s hlen with
    ⟨i, -, heq⟩ | ⟨hmem, hfold, heq⟩ | ⟨hmem, hfold, j, hj, heq⟩ | ⟨hmem, hfold, hmem2, heq⟩
  · rw [heq]; exact ⟨hnd, hlen, hsib⟩
  · rw [heq]
    refine ⟨by simp [List.nodup_append, hnd, hmem], by simp [hlen], ?_⟩
    intro i a ha
    by_cases hi : i < t.atoms.length
    · rw [List.getElem?_append_left hi] at ha
      exact hsib_old [s] [t.atoms.length] i a hi ha
    · rw [List.getElem?_append_right (Nat.le_of_not_lt hi)] at ha
      obtain ⟨hzero, rfl⟩ := drsh_getElem?_singleton ha
      have hieq : i = t.atoms.length := by omega
      subst hieq
      refine ⟨t.atoms.length, ?_, ?_⟩
      · rw [show t.atoms.length = t.iatom.length from hlen.symm] at *
        exact List.getElem?_concat_length _ _
      · rw [hfold]
        exact List.getElem?_concat_length _ _
  · rw [heq]
    refine ⟨by simp [List.nodup_append, hnd, hmem], by simp [hlen], ?_⟩
    intro i a ha
    by_cases hi : i < t.atoms.length
    · rw [List.getElem?_append_left hi] at ha
      exact hsib_old [s] [j] i a hi ha
    · rw [List.getElem?_append_right (Nat.le_of_not_lt hi)] at ha
      obtain ⟨hzero, rfl⟩ := drsh_getElem?_singleton ha
      have hieq : i = t.atoms.length := by omega
      subst hieq
      refine ⟨j, ?_, hj⟩
      rw [show t.atoms.length = t.iatom.length from hlen.symm]
      exact List.getElem?_concat_length _ _
  · rw [heq]
    have hmem2a : drsh_fold s ∉ t.atoms := fun hc => hmem2 (List.mem_append_left _ hc)
    have hmem2b : drsh_fold s ≠ s := hfold
    refine ⟨?_, by simp [hlen], ?_⟩
    · rw [show t.atoms ++ [s, drsh_fold s] = (t.atoms ++ [s]) ++ [drsh_fold s] by simp]
      have h1 : (t.atoms ++ [s]).Nodup := by simp [List.nodup_append, hnd, hmem]
      simp [List.nodup_append, h1, hmem2]
      exact ⟨hnd, fun hc => hfold hc.symm, hmem, hmem2a⟩
    · intro i a ha
      by_cases hi : i < t.atoms.length
      · rw [List.getElem?_append_left hi] at ha
        exact hsib_old [s, drsh_fold s] [t.atoms.length + 1, t.atoms.length + 1] i a hi ha
      · rw [List.getElem?_append_right (Nat.le_of_not_lt hi)] at ha
        have hfoldidx : (t.atoms ++ [s, drsh_fold s])[t.atoms.length + 1]? =
            some (drsh_fold s) := by
          rw [List.getElem?_append_right (by omega)]
          simp
        rcases drsh_getElem?_pair ha with ⟨h0, rfl⟩ | ⟨h1, rfl⟩
        · have hieq : i = t.atoms.length := by omega
          subst hieq
          refine ⟨t.atoms.length + 1, ?_, hfoldidx⟩
          rw [List.getElem?_append_right (by omega)]
          simp [hlen]
        · have hieq : i = t.atoms.length + 1 := by omega
          subst hieq
          refine ⟨t.atoms.length + 1, ?_, by rw [drsh_fold_idem]; exact hfoldidx⟩
          rw [List.getElem?_append_right (by omega)]
          simp [hlen]

theorem drsh_at_reach_inv (h : ByteStr → Nat) (t : DrshAtomTable)
    (ht : DrshAtomReach h t) : DrshAtomInv t := by
  induction ht with
  | init => exact ⟨List.nodup_nil, rfl, by intro i a ha; simp at ha⟩
  | step t s _ ih => exact drsh_at_atomize_inv h t s ih

/-- C6: on any reachable atom table, two `atomize` calls return the same
atom (the same table index) iff their inputs are byte-equal, and
atomizing a string already interned leaves the table unchanged (no
duplicate allocation). -/
theorem drsh_c6_atom_uniqueness (h : ByteStr → Nat) (t : DrshAtomTable)
    (ht : DrshAtomReach h t) (a b : ByteStr) :
    ((drsh_at_atomize h (drsh_at_atomize h t a).1 b).2 = (drsh_at_atomize h t a).2 ↔ b = a) ∧
    (a ∈ t.atoms → (drsh_at_atomize h t a).1 = t) := by
  have hinv := drsh_at_reach_inv h t ht
  have hinv1 := drsh_at_atomize_inv h t a hinv
  have hret1 : (drsh_at_atomize h t a).1.atoms[(drsh_at_atomize h t a).2]? = some a :=
    drsh_at_atomize_ret h t a hinv.2.1
  have hret2 : (drsh_at_atomize h (drsh_at_atomize h t a).1 b).1.atoms[
      (drsh_at_atomize h (drsh_at_atomize h t a).1 b).2]? = some b :=
    drsh_at_atomize_ret h (drsh_at_atomize h t a).1 b hinv1.2.1
  obtain ⟨u, hu⟩ := drsh_at_atomize_grows h (drsh_at_atomize h t a).1 b hinv1.2.1
  have hia_lt := (List.getElem?_eq_some.mp hret1).1
  have hret1' : (drsh_at_atomize h (drsh_at_atomize h t a).1 b).1.atoms[
      (drsh_at_atomize h t a).2]? = some a := by
    rw [hu, List.getElem?_append_left hia_lt]; exact hret1
  constructor
  · constructor
    · intro heq
      have hba : some b = some a := (heq ▸ hret2).symm.trans hret1'
      exact Option.some.inj hba
    · rintro rfl
      have hmem1 : b ∈ (drsh_at_atomize h t b).1.atoms := List.getElem?_mem hret1
      obtain ⟨i, hf⟩ := drsh_at_find_from_of_mem (h := h) hmem1
      have hfi : (drsh_at_atomize h t b).1.atoms[i]? = some b := drsh_at_find_from_some hf
      rw [drsh_at_atomize_found hf]
      exact List.getElem?_inj (List.getElem?_eq_some.mp hfi).1 hinv1.1
        (hfi.trans hret1.symm)
  · intro hmem
    obtain ⟨i, hf⟩ := drsh_at_find_from_of_mem (h := h) hmem
    rw [drsh_at_atomize_found hf]

/-- C6 witness: atomizing "a" twice on the (reachable) empty table returns
the same atom both times. -/
theorem drsh_c6_atom_uniqueness_witness :
    (drsh_at_atomize (fun _ => 0)
        (drsh_at_atomize (fun _ => 0) ⟨[], []⟩ [97]).1 [97]).2 =
      (drsh_at_atomize (fun _ => 0) ⟨[], []⟩ [97]).2 :=
  (drsh_c6_atom_uniqueness (fun _ => 0) ⟨[], []⟩ DrshAtomReach.init [97] [97]).1.mpr rfl

/-- C1 counterexample: the bytes `@` (0x40) and a backtick (0x60) are not
ASCII-case-equal in the spec's sense (neither is a letter and they
differ), yet after atomizing both on one table their `iatom` siblings are
pointer-equal, because `drsh_at_atomize` folds with `0x20 | c` on every
byte, mapping `@` to a backtick. -/
theorem drsh_c1_counterexample :
    ((drsh_at_atomize (fun _ => 0)
        (drsh_at_atomize (fun _ => 0) ⟨[], []⟩ [64]).1 [96]).1.iatom[
          (drsh_at_atomize (fun _ => 0) ⟨[], []⟩ [64]).2]? =
      (drsh_at_atomize (fun _ => 0)
        (drsh_at_atomize (fun _ => 0) ⟨[], []⟩ [64]).1 [96]).1.iatom[
          (drsh_at_atomize (fun _ => 0)
            (drsh_at_atomize (fun _ => 0) ⟨[], []⟩ [64]).1 [96]).2]?) ∧
    drsh_ascii_case_equal [64] [96] = false := by
  constructor
  · rfl
  · rfl

/-- C1 (amended): on any reachable atom table, the `iatom` siblings of
`atomize(a)` and `atomize(b)` are pointer-equal iff `a` and `b` agree
after OR-ing `0x20` into every byte (the fold the code actually applies),
rather than iff they are ASCII-case-equal. -/
theorem drsh_c1_fold_sibling (h : ByteStr → Nat) (t : DrshAtomTable)
    (ht : DrshAtomReach h t) (a b : ByteStr) :
    ((drsh_at_atomize h (drsh_at_atomize h t a).1 b).1.iatom[(drsh_at_atomize h t a).2]? =
      (drsh_at_atomize h (drsh_at_atomize h t a).1 b).1.iatom[
        (drsh_at_atomize h (drsh_at_atomize h t a).1 b).2]? ↔
      drsh_fold a = drsh_fold b) := by
  have hinv := drsh_at_reach_inv h t ht
  have hinv1 := drsh_at_atomize_inv h t a hinv
  have hinv2 := drsh_at_atomize_inv h (drsh_at_atomize h t a).1 b hinv1
  obtain ⟨hnd2, hlen2, hsib2⟩ := hinv2
  have hret1 : (drsh_at_atomize h t a).1.atoms[(drsh_at_atomize h t a).2]? = some a :=
    drsh_at_atomize_ret h t a hinv.2.1
  obtain ⟨u, hu⟩ := drsh_at_atomize_grows h (drsh_at_atomize h t a).1 b hinv1.2.1
  have hia_lt := (List.getElem?_eq_some.mp hret1).1
  have ha2 : (drsh_at_atomize h (drsh_at_atomize h t a).1 b).1.atoms[
      (drsh_at_atomize h t a).2]? = some a := by
    rw [hu, List.getElem?_append_left hia_lt]; exact hret1
  have hb2 : (drsh_at_atomize h (drsh_at_atomize h t a).1 b).1.atoms[
      (drsh_at_atomize h (drsh_at_atomize h t a).1 b).2]? = some b :=
    drsh_at_atomize_ret h (drsh_at_atomize h t a).1 b hinv1.2.1
  obtain ⟨j1, hj1, hj1v⟩ := hsib2 _ a ha2
  obtain ⟨j2, hj2, hj2v⟩ := hsib2 _ b hb2
  rw [hj1, hj2]
  constructor
  · intro heq
    have hj : j1 = j2 := Option.some.inj heq
    subst hj
    exact Option.some.inj (hj1v.symm.trans hj2v)
  · intro hf
    have hj : j1 = j2 :=
      List.getElem?_inj (List.getElem?_eq_some.mp hj1v).1 hnd2
        (hj1v.trans (by rw [hf, ← hj2v]))
    rw [hj]

/-- C1 amended witness: atomizing "A" and then "a" on the empty table
yields pointer-equal `iatom` siblings, since the two strings agree after
OR-ing `0x20` into every byte. -/
theorem drsh_c1_fold_sibling_witness :
    (drsh_at_atomize (fun _ => 0)
        (drsh_at_atomize (fun _ => 0) ⟨[], []⟩ [65]).1 [97]).1.iatom[
          (drsh_at_atomize (fun _ => 0) ⟨[], []⟩ [65]).2]? =
      (drsh_at_atomize (fun _ => 0)
        (drsh_at_atomize (fun _ => 0) ⟨[], []⟩ [65]).1 [97]).1.iatom[
          (drsh_at_atomize (fun _ => 0)
            (drsh_at_atomize (fun _ => 0) ⟨[], []⟩ [65]).1 [97]).2]? :=
  (drsh_c1_fold_sibling (fun _ => 0) ⟨[], []⟩ DrshAtomReach.init [65] [97]).mpr (by decide)

/-!
## Environment (src/drsh.c lines 3075-3193)

`DrshEnv.entries` is the key/value atom array in storage order (the C
stores them as interleaved pairs in `env->data`).  As with the atom
table, the open-addressed index keyed on the (folded, when
case-insensitive) key hash is modelled extensionally: `drsh_env_set_env`
probes with `atom == lkey` after folding both sides when
case-insensitive, so the probe is a first-match search with that
predicate.  `drsh_env_get_env` first probes comparing the stored key atom
directly against the folded query atom (the source compares the unfolded
stored atom pointer with the folded key pointer), and on a miss falls
back to the "slow and dumb" linear rescan comparing `iatom` siblings,
which by C1 is the fold comparison.  Atom pointers are replaced by the
byte strings themselves, justified by C6 (pointer equality iff byte
equality) and C1 (ifold pointer equality iff fold equality).
-/

/-- Environment state: key/value pairs in storage order, the
case-insensitivity flag, the cached `HOME` atom, and the debug flag. -/
structure DrshEnv where
  entries : List (ByteStr × ByteStr)
  case_insensitive : Bool
  home : Option ByteStr
  debug : Bool

/-- Key comparison used by `drsh_env_set_env`: fold both sides iff the
environment is case-insensitive. -/
def drsh_env_key_eqb (ci : Bool) (stored k : ByteStr) : Bool :=
  if ci then drsh_fold stored == drsh_fold k else stored == k

/-- First entry index whose key matches, as probed by `drsh_env_set_env`. -/
def drsh_env_find_from (ci : Bool) (k : ByteStr) : List (ByteStr × ByteStr) → Option Nat
  | [] => none
  | p :: ps =>
    if drsh_env_key_eqb ci p.1 k then some 0
    else (drsh_env_find_from ci k ps).map (· + 1)

/-- `drsh_env_set_env` from src/drsh.c:3078: replace the value (and, when
case-insensitive, also the stored original-case key) of the matching
entry, or append a new entry.  (The case-sensitive branch keeps the
stored key atom, which on a match is byte-equal to `k`.) -/
def drsh_env_set_env (e : DrshEnv) (k v : ByteStr) : DrshEnv :=
  match drsh_env_find_from e.case_insensitive k e.entries with
  | some i => { e with entries := e.entries.set i (k, v) }
  | none => { e with entries := e.entries ++ [(k, v)] }

/-- `drsh_env_get_env` from src/drsh.c:3155: case-insensitive lookups
first probe comparing the stored key atom with the folded query atom and
fall back to the linear `iatom` rescan; case-sensitive lookups compare
key atoms directly. -/
def drsh_env_get_env (e : DrshEnv) (k : ByteStr) : Option ByteStr :=
  if e.case_insensitive then
    let lk := drsh_fold k
    match e.entries.find? (fun p => p.1 == lk) with
    | some p => some p.2
    | none => (e.entries.find? (fun p => drsh_fold p.1 == lk)).map (fun p => p.2)
  else (e.entries.find? (fun p => p.1 == k)).map (fun p => p.2)

/-- Environment invariant: in a case-insensitive environment no two
entries share a folded key (set-before-get always collapses them). -/
def DrshEnvInv (e : DrshEnv) : Prop :=
  e.case_insensitive = true →
    e.entries.Pairwise (fun p q => drsh_fold p.1 ≠ drsh_fold q.1)

theorem drsh_env_find_from_none {ci : Bool} {k : ByteStr} {l : List (ByteStr × ByteStr)} :
    drsh_env_find_from ci k l = none ↔ ∀ p ∈ l, drsh_env_key_eqb ci p.1 k = false := by
  induction l with
  | nil => simp [drsh_env_find_from]
  | cons p ps ih =>
    by_cases hc : drsh_env_key_eqb ci p.1 k
    · simp [drsh_env_find_from, hc]
    · rw [drsh_env_find_from, if_neg hc]
      simp only [Option.map_eq_none', ih, List.mem_cons]
      constructor
      · intro h1 q hq
        rcases hq with rfl | hq
        · simpa using hc
        · exact h1 q hq
      · intro h1 q hq
        exact h1 q (Or.inr hq)

/-- Decomposition of a successful `set` probe: the entries split around
the first matching entry, and `set` replaces exactly that entry. -/
theorem drsh_env_set_split {ci : Bool} {k : ByteStr} {l : List (ByteStr × ByteStr)} {i : Nat}
    (hf : drsh_env_find_from ci k l = some i) (v : ByteStr) :
    ∃ l₁ p0 l₂, l = l₁ ++ p0 :: l₂ ∧ l.set i (k, v) = l₁ ++ (k, v) :: l₂ ∧
      (∀ p ∈ l₁, drsh_env_key_eqb ci p.1 k = false) ∧ drsh_env_key_eqb ci p0.1 k = true := by
  induction l generalizing i with
  | nil => simp [drsh_env_find_from] at hf
  | cons q qs ih =>
    by_cases hc : drsh_env_key_eqb ci q.1 k
    · rw [drsh_env_find_from, if_pos hc] at hf
      cases hf
      exact ⟨[], q, qs, rfl, rfl, by simp, hc⟩
    · rw [drsh_env_find_from, if_neg hc] at hf
      cases hrec : drsh_env_find_from ci k qs with
      | none => rw [hrec] at hf; simp at hf
      | some i' =>
        rw [hrec] at hf
        simp at hf
        subst hf
        obtain ⟨l₁, p0, l₂, hsp, hset, hfail, hp0⟩ := ih hrec
        refine ⟨q :: l₁, p0, l₂, by rw [List.cons_append, ← hsp], ?_, ?_, hp0⟩
        · rw [List.set_cons_succ, hset, List.cons_append]
        · intro p hp
          rcases List.mem_cons.mp hp with rfl | hp
          · simpa using hc
          · exact hfail p hp

/-- Value returned by `get` on an entry list that splits around the key's
entry, with no case-insensitively matching key on either side. -/
theorem drsh_env_get_aux_ci (l₁ l₂ : List (ByteStr × ByteStr)) (k v : ByteStr)
    (h1 : ∀ p ∈ l₁, drsh_fold p.1 ≠ drsh_fold k)
    (h2 : ∀ p ∈ l₂, drsh_fold p.1 ≠ drsh_fold k) :
    (match (l₁ ++ (k, v) :: l₂).find? (fun p => p.1 == drsh_fold k) with
      | some p => some p.2
      | none => ((l₁ ++ (k, v) :: l₂).find? (fun p => drsh_fold p.1 == drsh_fold k)).map
          (fun p => p.2)) = some v := by
  induction l₁ with
  | nil =>
    simp only [List.nil_append]
    by_cases hk : k = drsh_fold k
    · have hk1 : (k == drsh_fold k) = true := by simpa using hk
      simp only [List.find?_cons, hk1]
    · have hk1 : (k == drsh_fold k) = false := beq_eq_false_iff_ne.mpr hk
      have hl2 : l₂.find? (fun p => p.1 == drsh_fold k) = none := by
        rw [List.find?_eq_none]
        intro p hp hc
        refine h2 p hp ?_
        have hpk : p.1 = drsh_fold k := by simpa using hc
        rw [hpk, drsh_fold_idem]
      simp only [List.find?_cons, hk1, hl2]
      show (((k, v) :: l₂).find? (fun p => drsh_fold p.1 == drsh_fold k)).map
          (fun p => p.2) = some v
      have hk2 : (drsh_fold k == drsh_fold k) = true := by simp
      simp only [List.find?_cons, hk2, Option.map_some']
  | cons q l₁ ih =>
    have hq := h1 q (by simp)
    have hq1 : (q.1 == drsh_fold k) = false := by
      refine beq_eq_false_iff_ne.mpr ?_
      intro hc
      exact hq (by rw [hc, drsh_fold_idem])
    have hq2 : (drsh_fold q.1 == drsh_fold k) = false := beq_eq_false_iff_ne.mpr hq
    rw [List.cons_append]
    simp only [List.find?_cons, hq1]
    have hih := ih (fun p hp => h1 p (List.mem_cons_of_mem _ hp))
    cases hfind : (l₁ ++ (k, v) :: l₂).find? (fun p => p.1 == drsh_fold k) with
    | some p =>
      rw [hfind] at hih
      exact hih
    | none =>
      rw [hfind] at hih
      simp only [hq2]
      exact hih

/-- Value returned by the case-sensitive `get` on an entry list that
splits around the key's entry. -/
theorem drsh_env_get_aux_cs (l₁ l₂ : List (ByteStr × ByteStr)) (k v : ByteStr)
    (h1 : ∀ p ∈ l₁, (p.1 == k) = false) :
    ((l₁ ++ (k, v) :: l₂).find? (fun p => p.1 == k)).map (fun p => p.2) = some v := by
  induction l₁ with
  | nil => simp
  | cons q l₁ ih =>
    rw [List.cons_append]
    simp only [List.find?_cons, h1 q (by simp)]
    exact ih (fun p hp => h1 p (List.mem_cons_of_mem _ hp))

/-- Round-trip: `get` immediately after `set` returns the stored value
(under the case-insensitive uniqueness invariant). -/
theorem drsh_env_get_set (e : DrshEnv) (hinv : DrshEnvInv e) (k v : ByteStr) :
    drsh_env_get_env (drsh_env_set_env e k v) k = some v := by
  cases hci : e.case_insensitive with
  | false =>
    rw [drsh_env_set_env]
    cases hf : drsh_env_find_from e.case_insensitive k e.entries with
    | none =>
      have hall := drsh_env_find_from_none.mp hf
      rw [drsh_env_get_env]
      simp only [hci, Bool.false_eq_true, if_false]
      have := drsh_env_get_aux_cs e.entries [] k v
        (fun p hp => by have := hall p hp; rwa [drsh_env_key_eqb, hci, if_neg (by simp)] at this)
      simpa using this
    | some i =>
      obtain ⟨l₁, p0, l₂, hsp, hset, hfail, hp0⟩ := drsh_env_set_split hf v
      rw [drsh_env_get_env]
      simp only [hci, Bool.false_eq_true, if_false, hset]
      exact drsh_env_get_aux_cs l₁ l₂ k v
        (fun p hp => by have := hfail p hp; rwa [drsh_env_key_eqb, hci, if_neg (by simp)] at this)
  | true =>
    have hpw := hinv hci
    have hkeq : ∀ s, drsh_env_key_eqb e.case_insensitive s k =
        (drsh_fold s == drsh_fold k) := by
      intro s; rw [drsh_env_key_eqb, hci]; simp
    rw [drsh_env_set_env]
    cases hf : drsh_env_find_from e.case_insensitive k e.entries with
    | none =>
      have hall := drsh_env_find_from_none.mp hf
      have hallf : ∀ p ∈ e.entries, drsh_fold p.1 ≠ drsh_fold k := by
        intro p hp hc
        have := hall p hp
        rw [hkeq] at this
        simp [hc] at this
      rw [drsh_env_get_env]
      simp only [hci, if_true]
      exact drsh_env_get_aux_ci e.entries [] k v hallf (by simp)
    | some i =>
      obtain ⟨l₁, p0, l₂, hsp, hset, hfail, hp0⟩ := drsh_env_set_split hf v
      have hfail' : ∀ p ∈ l₁, drsh_fold p.1 ≠ drsh_fold k := by
        intro p hp hc
        have := hfail p hp
        rw [hkeq] at this
        simp [hc] at this
      have hp0f : drsh_fold p0.1 = drsh_fold k := by
        have := hp0
        rw [hkeq] at this
        simpa using this
      have hl2 : ∀ p ∈ l₂, drsh_fold p.1 ≠ drsh_fold k := by
        have hsub : (p0 :: l₂).Pairwise (fun p q => drsh_fold p.1 ≠ drsh_fold q.1) := by
          refine List.Pairwise.sublist ?_ (hsp ▸ hpw)
          exact List.sublist_append_right l₁ (p0 :: l₂)
        intro p hp hc
        exact (List.pairwise_cons.mp hsub).1 p hp (by rw [hp0f, hc])
      rw [drsh_env_get_env]
      simp only [hci, if_true, hset]
      exact drsh_env_get_aux_ci l₁ l₂ k v hfail' hl2

theorem drsh_upper_or (c : Nat) (h1 : 65 ≤ c) (h2 : c ≤ 90) : c ||| 32 = c + 32 := by
  interval_cases c <;> rfl

theorem drsh_lower_or (c : Nat) (h1 : 97 ≤ c) (h2 : c ≤ 122) : c ||| 32 = c := by
  interval_cases c <;> rfl

/-- ASCII-case-equal bytes agree after OR-ing in `0x20`. -/
theorem drsh_ascii_lower_fold (b1 b2 : Nat)
    (h : drsh_ascii_lower b1 = drsh_ascii_lower b2) :
    drsh_fold_byte b1 = drsh_fold_byte b2 := by
  unfold drsh_ascii_lower at h
  unfold drsh_fold_byte
  by_cases c1 : 65 ≤ b1 ∧ b1 ≤ 90 <;> by_cases c2 : 65 ≤ b2 ∧ b2 ≤ 90
  · rw [if_pos c1, if_pos c2] at h
    have hb : b1 = b2 := by omega
    rw [hb]
  · rw [if_pos c1, if_neg c2] at h
    have hb2 : b2 = b1 + 32 := h.symm
    rw [hb2, drsh_upper_or b1 c1.1 c1.2, drsh_lower_or (b1 + 32) (by omega) (by omega)]
  · rw [if_neg c1, if_pos c2] at h
    have hb1 : b1 = b2 + 32 := h
    rw [hb1, drsh_upper_or b2 c2.1 c2.2, drsh_lower_or (b2 + 32) (by omega) (by omega)]
  · rw [if_neg c1, if_neg c2] at h
    rw [h]

theorem drsh_fold_of_lower_map : ∀ {a b : ByteStr},
    a.map drsh_ascii_lower = b.map drsh_ascii_lower → drsh_fold a = drsh_fold b
  | [], [], _ => rfl
  | [], _ :: _, h => by simp at h
  | _ :: _, [], h => by simp at h
  | x :: xs, y :: ys, h => by
    simp only [List.map_cons, List.cons.injEq] at h
    simp only [drsh_fold, List.map_cons, List.cons.injEq]
    exact ⟨drsh_ascii_lower_fold x y h.1, drsh_fold_of_lower_map h.2⟩

theorem drsh_ascii_case_equal_fold {a b : ByteStr}
    (h : drsh_ascii_case_equal a b = true) : drsh_fold a = drsh_fold b :=
  drsh_fold_of_lower_map (by simpa [drsh_ascii_case_equal] using h)

/-- Case-insensitive `get` depends on the query key only through its fold. -/
theorem drsh_env_get_env_ci_congr (e : DrshEnv) (hci : e.case_insensitive = true)
    {k k' : ByteStr} (hf : drsh_fold k' = drsh_fold k) :
    drsh_env_get_env e k' = drsh_env_get_env e k := by
  rw [drsh_env_get_env, drsh_env_get_env, hci]
  simp only [if_true, hf]

/-- C4: `get(k)` right after `set(k, v)` returns `v` in any environment
state satisfying the uniqueness invariant; and in a case-insensitive
(DOS-family) environment, `get` of any ASCII-case variant of a key
returns the same value as `get` of the key itself. -/
theorem drsh_c4_env_round_trip (e : DrshEnv) (hinv : DrshEnvInv e) (k v k' : ByteStr) :
    drsh_env_get_env (drsh_env_set_env e k v) k = some v ∧
    (e.case_insensitive = true → drsh_ascii_case_equal k' k = true →
      drsh_env_get_env e k' = drsh_env_get_env e k) := by
  refine ⟨drsh_env_get_set e hinv k v, ?_⟩
  intro hci hcase
  exact drsh_env_get_env_ci_congr e hci (drsh_ascii_case_equal_fold hcase)

/-- C4 witness: in a one-entry case-insensitive environment holding
`PATH=/bin`, setting and re-reading `PATH`, and reading `path` versus
`PATH`. -/
theorem drsh_c4_env_round_trip_witness :
    drsh_env_get_env
        (drsh_env_set_env ⟨[([80, 65, 84, 72], [47, 98, 105, 110])], true, none, false⟩
          [80, 65, 84, 72] [47, 117, 115, 114]) [80, 65, 84, 72] =
      some [47, 117, 115, 114] ∧
    drsh_env_get_env ⟨[([80, 65, 84, 72], [47, 98, 105, 110])], true, none, false⟩
        [112, 97, 116, 104] =
      drsh_env_get_env ⟨[([80, 65, 84, 72], [47, 98, 105, 110])], true, none, false⟩
        [80, 65, 84, 72] := by
  have h := drsh_c4_env_round_trip
    ⟨[([80, 65, 84, 72], [47, 98, 105, 110])], true, none, false⟩
    (by intro _; simp) [80, 65, 84, 72] [47, 117, 115, 114] [112, 97, 116, 104]
  exact ⟨h.1, h.2 rfl (by decide)⟩

/-!
## Tokenizer and canonicalizer (src/drsh.c lines 2369-2558) and line
## dispatch (src/drsh.c lines 3799-3902)

`drsh_tokenize_line` walks the line with a (current token, quote state,
backslash state) machine; a token is the contiguous source span from its
first byte to the byte before the terminating unquoted whitespace, so the
accumulated bytes reproduce the C span.  `drsh_canonicalize` walks a
token with a (dollar span, quote state, backslash state) machine; after a
variable name ends, the C code falls through and processes the very same
byte with the main switch, which `drsh_canonicalize_step` captures (every
branch of that switch consumes the byte).  `drsh_env_get_env2` (atomize
then `get`) is the byte-string `drsh_env_get_env`.

In `drsh_tokens_to_argv` the POSIX build passes each canonicalized token
through the OS facility `glob(3)` with `GLOB_NOCHECK` (an external
collaborator per the spec; it returns a word with no pattern characters
unchanged), and the Windows build appends the token directly; the model
maps canonicalization over the tokens, i.e. the glob step is the
identity, which is exact for every token the claims exercise.  Dispatch
compares the first atom against the well-known atoms in source order;
`cd`, `source`/`.`, `time` and the final spawn hand control to the OS
(chdir, file reading, process spawning) and are returned as `osCmd`
values; `pwd` looks up the atom `pwd` (not `PWD`), as the source does.
-/

/-- Token-splitting whitespace set of `drsh_tokenize_line`:
NUL, space, CR, TAB, LF, FF. -/
def drsh_is_ws (c : Nat) : Bool :=
  c == 0 || c == 32 || c == 13 || c == 9 || c == 10 || c == 12

/-- The tokenizer state machine: current token span (if any), quote
state (0 = unquoted), backslash state. -/
def drsh_tokenize_go : List Nat → Option ByteStr → Nat → Bool → List ByteStr
  | [], none, _, _ => []
  | [], some tok, _, _ => [tok]
  | c :: rest, none, quoted, backslash =>
    if drsh_is_ws c then drsh_tokenize_go rest none quoted backslash
    else if c == 34 || c == 39 then drsh_tokenize_go rest (some [c]) c backslash
    else drsh_tokenize_go rest (some [c]) quoted backslash
  | c :: rest, some tok, quoted, backslash =>
    if backslash then drsh_tokenize_go rest (some (tok ++ [c])) quoted false
    else if c == 92 then drsh_tokenize_go rest (some (tok ++ [c])) quoted true
    else if c == quoted then drsh_tokenize_go rest (some (tok ++ [c])) 0 backslash
    else if quoted != 0 then drsh_tokenize_go rest (some (tok ++ [c])) quoted backslash
    else if drsh_is_ws c then tok :: drsh_tokenize_go rest none quoted backslash
    else if c == 34 || c == 39 then drsh_tokenize_go rest (some (tok ++ [c])) c backslash
    else drsh_tokenize_go rest (some (tok ++ [c])) quoted backslash

/-- `drsh_tokenize_line` from src/drsh.c:2369. -/
def drsh_tokenize_line (rb : ByteStr) : List ByteStr :=
  drsh_tokenize_go rb none 0 false

/-- Variable-name bytes of the canonicalizer: `[A-Za-z0-9_]`. -/
def drsh_is_varname_byte (c : Nat) : Bool :=
  decide ((65 ≤ c ∧ c ≤ 90) ∨ (97 ≤ c ∧ c ≤ 122) ∨ (48 ≤ c ∧ c ≤ 57) ∨ c = 95)

/-- Flush of a terminated `$NAME` span: append the variable's value when
the name is nonempty and set (src/drsh.c:2477-2488 and 2544-2554). -/
def drsh_dollar_flush (env : DrshEnv) (name out : ByteStr) : ByteStr :=
  if name.length > 0 then
    match drsh_env_get_env env name with
    | some value => out ++ value
    | none => out
  else out

/-- The canonicalizer's main switch on one byte (src/drsh.c:2491-2542):
quote toggling, backslash handling, `$` start; returns the updated
(dollar, quoted, backslash, output) state.  Every branch of the C switch
consumes the byte. -/
def drsh_canonicalize_step (c quoted : Nat) (backslash : Bool) (out : ByteStr) :
    Option ByteStr × Nat × Bool × ByteStr :=
  if c == 36 && !backslash then (some [], quoted, backslash, out)
  else if c == 34 && !backslash && quoted == 34 then (none, 0, backslash, out)
  else if c == 34 && !backslash && quoted == 0 then (none, 34, backslash, out)
  else if c == 39 && !backslash && quoted == 39 then (none, 0, backslash, out)
  else if c == 39 && !backslash && quoted == 0 then (none, 39, backslash, out)
  else if c == 92 && !backslash then (none, quoted, true, out)
  else
    let out2 := if backslash && !(c == 32 || c == 34 || c == 39) then out ++ [92] else out
    (none, quoted, false, out2 ++ [c])

/-- The canonicalizer loop: while a `$NAME` span is open, matching bytes
extend it; the first non-matching byte flushes the span and is then
processed by the main switch, exactly as the C code falls through. -/
def drsh_canonicalize_go (env : DrshEnv) :
    List Nat → Option ByteStr → Nat → Bool → ByteStr → ByteStr
  | [], dollar, _, _, out =>
    match dollar with
    | some name => drsh_dollar_flush env name out
    | none => out
  | c :: rest, some name, quoted, backslash, out =>
    if drsh_is_varname_byte c then
      drsh_canonicalize_go env rest (some (name ++ [c])) quoted backslash out
    else
      match drsh_canonicalize_step c quoted backslash (drsh_dollar_flush env name out) with
      | (d, q, b, o) => drsh_canonicalize_go env rest d q b o
  | c :: rest, none, quoted, backslash, out =>
    match drsh_canonicalize_step c quoted backslash out with
    | (d, q, b, o) => drsh_canonicalize_go env rest d q b o

/-- `drsh_canonicalize` from src/drsh.c:2453: leading-tilde expansion to
the cached `HOME`, then the per-byte loop. -/
def drsh_canonicalize (env : DrshEnv) (backslash_is_sep : Bool) (tok : ByteStr) : ByteStr :=
  match env.home with
  | some home =>
    if tok.head? = some 126 ∧ home.length > 0 ∧
        (tok.tail = [] ∨ tok.tail.head? = some 47 ∨
          (backslash_is_sep ∧ tok.tail.head? = some 92)) then
      drsh_canonicalize_go env tok.tail none 0 false home
    else drsh_canonicalize_go env tok none 0 false []
  | none => drsh_canonicalize_go env tok none 0 false []

/-- Byte-wise `strcmp`-style less-or-equal, the order of
`drsh_atom_cmp`. -/
def drsh_bytes_le : ByteStr → ByteStr → Bool
  | [], _ => true
  | _ :: _, [] => false
  | a :: as, b :: bs => if a < b then true else if b < a then false else drsh_bytes_le as bs

/-- Comparator of `drsh_env_sort_env`: `strcmp` on the key atoms, or on
their folded siblings when case-insensitive (`drsh_atom_icmp`). -/
def drsh_env_key_le (ci : Bool) (p q : ByteStr × ByteStr) : Bool :=
  if ci then drsh_bytes_le (drsh_fold p.1) (drsh_fold q.1) else drsh_bytes_le p.1 q.1

def drsh_env_insert_entry (ci : Bool) (p : ByteStr × ByteStr) :
    List (ByteStr × ByteStr) → List (ByteStr × ByteStr)
  | [] => [p]
  | q :: qs =>
    if drsh_env_key_le ci p q then p :: q :: qs else q :: drsh_env_insert_entry ci p qs

def drsh_env_sort_entries (ci : Bool) :
    List (ByteStr × ByteStr) → List (ByteStr × ByteStr)
  | [] => []
  | p :: ps => drsh_env_insert_entry ci p (drsh_env_sort_entries ci ps)

/-- `drsh_env_sort_env` from src/drsh.c:3050: sort the entry array by the
key comparator (a sort permutes the entries; `qsort` is unstable, so any
order consistent with the comparator is a faithful outcome). -/
def drsh_env_sort_env (e : DrshEnv) : DrshEnv :=
  { e with entries := drsh_env_sort_entries e.case_insensitive e.entries }

/-- Output of the zero-argument `set` listing (POSIX branch:
`KEY=VALUE\r\n` per entry). -/
def drsh_env_listing (e : DrshEnv) : ByteStr :=
  e.entries.foldl (fun acc p => acc ++ p.1 ++ [61] ++ p.2 ++ [13, 10]) []

/-- Output of the `echo` builtin: each argument followed by a space, then
CRLF (src/drsh.c:3824-3833). -/
def drsh_echo_output (argv : List ByteStr) : ByteStr :=
  (argv.drop 1).foldl (fun acc p => acc ++ p ++ [32]) [] ++ [13, 10]

deriving instance DecidableEq for DrshEnv

/-- Result of dispatching one line: a builtin ran (with the new
environment and the bytes it wrote), `exit` was hit, or control passes to
the OS (tag 0 = chdir, 1 = source a file, 2 = timed spawn, 3 = spawn). -/
inductive DrshDispatch
  | builtin (env : DrshEnv) (out : ByteStr)
  | exitShell (env : DrshEnv)
  | osCmd (tag : Nat) (argv : List ByteStr) (env : DrshEnv)
deriving DecidableEq

/-- Dispatch on the canonicalized argv (src/drsh.c:3818-3901): compare
the first atom against the well-known atoms in source order.  An empty
argv reaches the spawn call with a null argv[0] in the C code (which then
fails with VALUE_ERROR); it is mapped to the spawn case. -/
def drsh_dispatch (env : DrshEnv) (argv : List ByteStr) : DrshDispatch :=
  match argv with
  | [] => .osCmd 3 argv env
  | first :: _ =>
    if first = drsh_bytes "cd" then .osCmd 0 argv env
    else if first = drsh_bytes "echo" then .builtin env (drsh_echo_output argv)
    else if first = drsh_bytes "exit" then .exitShell env
    else if first = drsh_bytes "pwd" then
      .builtin env
        (match drsh_env_get_env env (drsh_bytes "pwd") with
          | some v => v ++ [13, 10]
          | none => [])
    else if first = drsh_bytes "set" then
      if argv.length = 1 then
        .builtin (drsh_env_sort_env env) (drsh_env_listing (drsh_env_sort_env env))
      else if argv.length ≠ 3 then .builtin env []
      else
        match argv[1]?, argv[2]? with
        | some key, some value =>
          if key.length = 0 then .builtin env []
          else .builtin (drsh_env_set_env env key value) []
        | _, _ => .builtin env []
    else if first = drsh_bytes "debug" then
      if argv.length > 1 then
        match argv[1]? with
        | some val =>
          if val = drsh_bytes "on" ∨ val = drsh_bytes "true" ∨ val = drsh_bytes "1" then
            .builtin { env with debug := true } []
          else if val = drsh_bytes "off" ∨ val = drsh_bytes "false" ∨ val = drsh_bytes "0" then
            .builtin { env with debug := false } []
          else .builtin env []
        | none => .builtin env []
      else
        .builtin env (drsh_bytes "debug = " ++
          (if env.debug then drsh_bytes "true" else drsh_bytes "false") ++ [13, 10])
    else if first = drsh_bytes "source" ∨ first = drsh_bytes "." then
      if argv.length > 1 then .osCmd 1 argv env else .builtin env []
    else if first = drsh_bytes "time" then
      if argv.length > 1 then .osCmd 2 (argv.drop 1) env else .builtin env []
    else .osCmd 3 argv env

/-- `drsh_process_line` from src/drsh.c:3799: a lone CR or LF line is a
no-op; otherwise tokenize, canonicalize into argv, and dispatch. -/
def drsh_process_line (env : DrshEnv) (line : ByteStr) : DrshDispatch :=
  if line.length = 1 ∧ (line.head? = some 13 ∨ line.head? = some 10) then .builtin env []
  else drsh_dispatch env ((drsh_tokenize_line line).map (drsh_canonicalize env false))

/-- The bytes a dispatch result wrote (builtins only). -/
def drsh_dispatch_out : DrshDispatch → ByteStr
  | .builtin _ out => out
  | .exitShell _ => []
  | .osCmd _ _ _ => []

/-- The environment a dispatch result carries. -/
def drsh_dispatch_env : DrshDispatch → DrshEnv
  | .builtin env _ => env
  | .exitShell env => env
  | .osCmd _ _ env => env

theorem drsh_canonicalize_no_tilde (env : DrshEnv) (b : Bool) (tok : ByteStr)
    (h : tok.head? ≠ some 126) :
    drsh_canonicalize env b tok = drsh_canonicalize_go env tok none 0 false [] := by
  rw [drsh_canonicalize]
  cases env.home with
  | none => rfl
  | some home => exact if_neg (fun hc => h hc.1)

theorem drsh_canonicalize_go_plain (env : DrshEnv) :
    ∀ (tok out : ByteStr), (∀ c ∈ tok, c ≠ 36 ∧ c ≠ 34 ∧ c ≠ 39 ∧ c ≠ 92) →
    drsh_canonicalize_go env tok none 0 false out = out ++ tok
  | [], out, _ => by simp [drsh_canonicalize_go]
  | c :: rest, out, h => by
    have hc := h c (by simp)
    have h36 : (c == 36) = false := beq_eq_false_iff_ne.mpr hc.1
    have h34 : (c == 34) = false := beq_eq_false_iff_ne.mpr hc.2.1
    have h39 : (c == 39) = false := beq_eq_false_iff_ne.mpr hc.2.2.1
    have h92 : (c == 92) = false := beq_eq_false_iff_ne.mpr hc.2.2.2
    have hstep : drsh_canonicalize_step c 0 false out = (none, 0, false, out ++ [c]) := by
      simp [drsh_canonicalize_step, h36, h34, h39, h92]
    rw [drsh_canonicalize_go, hstep]
    show drsh_canonicalize_go env rest none 0 false (out ++ [c]) = out ++ c :: rest
    rw [drsh_canonicalize_go_plain env rest (out ++ [c])
      (fun x hx => h x (List.mem_cons_of_mem _ hx))]
    simp

/-- Canonicalizing the single-quoted token `'$X'`: the `$` case of the
canonicalizer does not check the quote state, so the variable expands. -/
theorem drsh_canonicalize_sq_dollar (env : DrshEnv) :
    drsh_canonicalize env false [39, 36, 88, 39] = drsh_dollar_flush env [88] [] := by
  rw [drsh_canonicalize_no_tilde env false _ (by decide)]
  simp [drsh_canonicalize_go, drsh_canonicalize_step, drsh_is_varname_byte]

/-- Canonicalizing the double-quoted token `"\$X"`: the backslash makes
the `$` literal but is itself preserved (only space and the two quote
bytes drop a preceding backslash). -/
theorem drsh_canonicalize_dq_esc_dollar (env : DrshEnv) :
    drsh_canonicalize env false [34, 92, 36, 88, 34] = [92, 36, 88] := by
  rw [drsh_canonicalize_no_tilde env false _ (by decide)]
  simp [drsh_canonicalize_go, drsh_canonicalize_step, drsh_is_varname_byte]

/-- Canonicalizing the bare token `$X` expands the variable. -/
theorem drsh_canonicalize_dollar_name (env : DrshEnv) :
    drsh_canonicalize env false [36, 88] = drsh_dollar_flush env [88] [] := by
  rw [drsh_canonicalize_no_tilde env false _ (by decide)]
  simp [drsh_canonicalize_go, drsh_canonicalize_step, drsh_is_varname_byte]

theorem drsh_dollar_flush_some {env : DrshEnv} {name v : ByteStr} (out : ByteStr)
    (h : drsh_env_get_env env name = some v) (hn : name.length > 0) :
    drsh_dollar_flush env name out = out ++ v := by
  rw [drsh_dollar_flush, if_pos hn, h]

theorem drsh_process_set_x_hello (e : DrshEnv) :
    drsh_process_line e (drsh_bytes "set X hello") =
      DrshDispatch.builtin (drsh_env_set_env e (drsh_bytes "X") (drsh_bytes "hello")) [] := by
  obtain ⟨entries, ci, home, dbg⟩ := e
  cases home <;> rfl

/-- C2 counterexample: starting from an empty case-sensitive environment
and processing `set X hello`, the line `echo '$X'` writes
`hello \r\n` (not `$X \r\n`: the `$` inside single quotes is expanded),
and the line `echo "\$X"` writes `\$X \r\n` (not `$X \r\n`: the
backslash is preserved in front of the literal `$`). -/
theorem drsh_c2_counterexample :
    (drsh_dispatch_out (drsh_process_line
        (drsh_dispatch_env (drsh_process_line ⟨[], false, none, false⟩
          (drsh_bytes "set X hello")))
        (drsh_bytes "echo " ++ [39, 36, 88, 39])) = drsh_bytes "hello " ++ [13, 10] ∧
      drsh_dispatch_out (drsh_process_line
        (drsh_dispatch_env (drsh_process_line ⟨[], false, none, false⟩
          (drsh_bytes "set X hello")))
        (drsh_bytes "echo " ++ [39, 36, 88, 39])) ≠ [36, 88, 32, 13, 10]) ∧
    (drsh_dispatch_out (drsh_process_line
        (drsh_dispatch_env (drsh_process_line ⟨[], false, none, false⟩
          (drsh_bytes "set X hello")))
        (drsh_bytes "echo " ++ [34, 92, 36, 88, 34])) = [92, 36, 88, 32, 13, 10] ∧
      drsh_dispatch_out (drsh_process_line
        (drsh_dispatch_env (drsh_process_line ⟨[], false, none, false⟩
          (drsh_bytes "set X hello")))
        (drsh_bytes "echo " ++ [34, 92, 36, 88, 34])) ≠ [36, 88, 32, 13, 10]) := by
  refine ⟨⟨by decide, by decide⟩, ⟨by decide, by decide⟩⟩

/-- C2 (amended): after `set X hello`, `echo '$X'` writes `hello \r\n`
(single quotes do not suppress `$` expansion in this code), `echo "\$X"`
writes `\$X \r\n` (the escaping backslash is kept), and `echo $X` writes
`hello \r\n` as claimed. -/
theorem drsh_c2_quote_dollar_outputs (e : DrshEnv) (hinv : DrshEnvInv e) :
    drsh_process_line e (drsh_bytes "set X hello") =
      DrshDispatch.builtin (drsh_env_set_env e (drsh_bytes "X") (drsh_bytes "hello")) [] ∧
    drsh_dispatch_out (drsh_process_line
        (drsh_env_set_env e (drsh_bytes "X") (drsh_bytes "hello"))
        (drsh_bytes "echo " ++ [39, 36, 88, 39])) = drsh_bytes "hello " ++ [13, 10] ∧
    drsh_dispatch_out (drsh_process_line
        (drsh_env_set_env e (drsh_bytes "X") (drsh_bytes "hello"))
        (drsh_bytes "echo " ++ [34, 92, 36, 88, 34])) = [92, 36, 88, 32, 13, 10] ∧
    drsh_dispatch_out (drsh_process_line
        (drsh_env_set_env e (drsh_bytes "X") (drsh_bytes "hello"))
        (drsh_bytes "echo $X")) = drsh_bytes "hello " ++ [13, 10] := by
  have hget : drsh_env_get_env (drsh_env_set_env e (drsh_bytes "X") (drsh_bytes "hello"))
      [88] = some (drsh_bytes "hello") := by
    have hx : drsh_bytes "X" = [88] := by decide
    rw [← hx]
    exact drsh_env_get_set e hinv (drsh_bytes "X") (drsh_bytes "hello")
  have hflush : drsh_dollar_flush
      (drsh_env_set_env e (drsh_bytes "X") (drsh_bytes "hello")) [88] [] =
        drsh_bytes "hello" :=
    drsh_dollar_flush_some [] hget (by decide)
  refine ⟨drsh_process_set_x_hello e, ?_, ?_, ?_⟩
  · rw [drsh_process_line, if_neg (by decide),
      show drsh_tokenize_line (drsh_bytes "echo " ++ [39, 36, 88, 39]) =
        [drsh_bytes "echo", [39, 36, 88, 39]] from by decide]
    simp only [List.map_cons, List.map_nil]
    rw [drsh_canonicalize_no_tilde _ false _ (by decide),
      drsh_canonicalize_go_plain _ _ [] (by decide),
      drsh_canonicalize_sq_dollar, hflush]
    rfl
  · rw [drsh_process_line, if_neg (by decide),
      show drsh_tokenize_line (drsh_bytes "echo " ++ [34, 92, 36, 88, 34]) =
        [drsh_bytes "echo", [34, 92, 36, 88, 34]] from by decide]
    simp only [List.map_cons, List.map_nil]
    rw [drsh_canonicalize_no_tilde _ false _ (by decide),
      drsh_canonicalize_go_plain _ _ [] (by decide),
      drsh_canonicalize_dq_esc_dollar]
    rfl
  · rw [drsh_process_line, if_neg (by decide),
      show drsh_tokenize_line (drsh_bytes "echo $X") =
        [drsh_bytes "echo", [36, 88]] from by decide]
    simp only [List.map_cons, List.map_nil]
    rw [drsh_canonicalize_no_tilde _ false _ (by decide),
      drsh_canonicalize_go_plain _ _ [] (by decide),
      drsh_canonicalize_dollar_name, hflush]
    rfl

/-- C2 amended witness at the empty case-sensitive environment. -/
theorem drsh_c2_quote_dollar_outputs_witness :
    drsh_dispatch_out (drsh_process_line
        (drsh_env_set_env ⟨[], false, none, false⟩ (drsh_bytes "X") (drsh_bytes "hello"))
        (drsh_bytes "echo " ++ [39, 36, 88, 39])) = drsh_bytes "hello " ++ [13, 10] :=
  (drsh_c2_quote_dollar_outputs ⟨[], false, none, false⟩ (fun h => by simp at h)).2.1

/-- C10: dispatching a `set` line with one argument, with three or more
arguments, or with an empty first argument leaves the environment
unchanged and writes nothing (argv counts below exclude the trailing
NULL of the C argv, so `set X` has argv length 2, `set K V` length 3). -/
theorem drsh_c10_set_frame (e : DrshEnv) (line : ByteStr)
    (h1 : ((drsh_tokenize_line line).map (drsh_canonicalize e false)).head? =
      some (drsh_bytes "set"))
    (h2 : ((drsh_tokenize_line line).map (drsh_canonicalize e false)).length = 2 ∨
      4 ≤ ((drsh_tokenize_line line).map (drsh_canonicalize e false)).length ∨
      (((drsh_tokenize_line line).map (drsh_canonicalize e false)).length = 3 ∧
        ((drsh_tokenize_line line).map (drsh_canonicalize e false))[1]? = some [])) :
    drsh_process_line e line = DrshDispatch.builtin e [] := by
  rw [drsh_process_line]
  by_cases hcr : line.length = 1 ∧ (line.head? = some 13 ∨ line.head? = some 10)
  · exfalso
    obtain ⟨hlen, hhead⟩ := hcr
    match line, hlen with
    | [c], _ =>
      rcases hhead with hh | hh <;>
        (simp only [List.head?_cons, Option.some.injEq] at hh; subst hh;
         simp [drsh_tokenize_line, drsh_tokenize_go, drsh_is_ws] at h1)
  · rw [if_neg hcr]
    revert h1 h2
    generalize (drsh_tokenize_line line).map (drsh_canonicalize e false) = argv
    intro h1 h2
    match argv, h1 with
    | first :: rest, h1 =>
      have hfst : first = drsh_bytes "set" := by simpa using h1
      subst hfst
      rw [drsh_dispatch]
      rw [if_neg (by decide), if_neg (by decide), if_neg (by decide), if_neg (by decide),
        if_pos rfl]
      simp only [List.length_cons] at h2
      rcases h2 with h2 | h2 | ⟨h2, hkey⟩
      · have hne1 : ¬ (drsh_bytes "set" :: rest).length = 1 := by
          simp only [List.length_cons]; omega
        have hne3 : (drsh_bytes "set" :: rest).length ≠ 3 := by
          simp only [List.length_cons]; omega
        rw [if_neg hne1, if_pos hne3]
      · have hne1 : ¬ (drsh_bytes "set" :: rest).length = 1 := by
          simp only [List.length_cons]; omega
        have hne3 : (drsh_bytes "set" :: rest).length ≠ 3 := by
          simp only [List.length_cons]; omega
        rw [if_neg hne1, if_pos hne3]
      · have hne1 : ¬ (drsh_bytes "set" :: rest).length = 1 := by
          simp only [List.length_cons]; omega
        have heq3 : (drsh_bytes "set" :: rest).length = 3 := by
          simp only [List.length_cons]; omega
        rw [if_neg hne1, if_neg (not_not_intro heq3)]
        match rest, h2, hkey with
        | k :: v :: [], _, hkey =>
          have hk : k = [] := by simpa using hkey
          subst hk
          rfl

/-- C10 witness: `set X` on a one-entry environment leaves it unchanged
and prints nothing. -/
theorem drsh_c10_set_frame_witness :
    drsh_process_line ⟨[([65], [66])], false, none, false⟩ (drsh_bytes "set X") =
      DrshDispatch.builtin ⟨[([65], [66])], false, none, false⟩ [] :=
  drsh_c10_set_frame ⟨[([65], [66])], false, none, false⟩ (drsh_bytes "set X")
    (by decide) (by decide)

/-!
## Program resolver (src/drsh.c lines 3282-3481, POSIX family)

`drsh_env_resolve_prog_path` with `windows_style = 0`: a program that is
absolute or contains `/` is used directly (no existence probe on POSIX);
otherwise the `PATH` value is walked with `strchr(p, ':')`, which visits
exactly the `:`-separated segments in order — `drsh_split_all` produces
that segment list, and `drsh_resolve_walk` performs the per-segment body.
The byte the C code reads at `directory.txt[directory.length]` is the
separator following the segment (`:` for non-final segments, the NUL
terminator for the final one), so the model supplies 58 or 0 there.  The
existence probe `drsh_exists` (an OS `stat`) is the oracle parameter
`ex`. -/

/-- `drsh_path_is_abs` from src/drsh.c:733 (reading `txt[0]` of an empty
atom text yields its NUL terminator, modelled by `headD 0`). -/
def drsh_path_is_abs (path : ByteStr) (windows_style : Bool) : Bool :=
  let drive := windows_style && path.length > 2 &&
    ((path[1]?).getD 0 == 58) && (((path[2]?).getD 0 == 47) || ((path[2]?).getD 0 == 92)) &&
    (97 ≤ path.headD 0 ||| 32 && path.headD 0 ||| 32 ≤ 122)
  (drive || (windows_style && path.headD 0 == 92)) || path.headD 0 == 47

/-- The `:`-separated segments of a PATH value, in order, as `strchr`
visits them (an empty value yields one empty segment, a trailing
separator a final empty segment). -/
def drsh_split_all (sep : Nat) : ByteStr → List ByteStr
  | [] => [[]]
  | c :: rest =>
    if c = sep then [] :: drsh_split_all sep rest
    else
      match drsh_split_all sep rest with
      | [] => [[c]]
      | seg :: segs => (c :: seg) :: segs


/-- The candidate path one loop iteration forms: the directory, a `/`
unless the byte following the directory in the PATH text (`:` for
non-final segments, the NUL terminator for the final one, read by
`directory.txt[directory.length]`) is `/`, then the program name. -/
def drsh_resolve_cand (prog dir : ByteStr) (rest : List ByteStr) : ByteStr :=
  dir ++ (if (match rest with | [] => (0 : Nat) | _ :: _ => 58) != 47 then [47] else []) ++ prog

/-- The PATH-walking loop of `drsh_env_resolve_prog_path` (POSIX branch,
src/drsh.c:3339-3420): skip empty directories (break when the final
segment is empty), form the candidate, and return the first formed path
that exists. -/
def drsh_resolve_walk (ex : ByteStr → Bool) (prog : ByteStr) :
    List ByteStr → Option ByteStr
  | [] => none
  | dir :: rest =>
    if dir = [] then
      match rest with
      | [] => none
      | _ :: _ => drsh_resolve_walk ex prog rest
    else if ex (drsh_resolve_cand prog dir rest) then some (drsh_resolve_cand prog dir rest)
    else
      match rest with
      | [] => none
      | _ :: _ => drsh_resolve_walk ex prog rest

/-- `drsh_env_resolve_prog_path` from src/drsh.c:3285, POSIX
specialization: `some` resolved path, or `none` for NOT_FOUND (also when
`PATH` is unset). -/
def drsh_env_resolve_prog_path_posix (ex : ByteStr → Bool) (pathVal : Option ByteStr)
    (prog : ByteStr) : Option ByteStr :=
  let has_dir := drsh_path_is_abs prog false || prog.contains 47
  if has_dir then some prog
  else
    match pathVal with
    | none => none
    | some path => drsh_resolve_walk ex prog (drsh_split_all 58 path)

/-- Spec-side candidate list: `directory/P` for each non-empty
`:`-separated PATH directory, in left-to-right order. -/
def drsh_spec_path_candidates (path prog : ByteStr) : List ByteStr :=
  ((drsh_split_all 58 path).filter (fun d => d ≠ [])).map (fun d => d ++ 47 :: prog)

theorem drsh_resolve_cand_eq (prog dir : ByteStr) (rest : List ByteStr) :
    drsh_resolve_cand prog dir rest = dir ++ 47 :: prog := by
  cases rest <;> simp [drsh_resolve_cand]

theorem drsh_resolve_walk_eq_find (ex : ByteStr → Bool) (prog : ByteStr) :
    ∀ segs : List ByteStr,
    drsh_resolve_walk ex prog segs =
      ((segs.filter (fun d => d ≠ [])).map (fun d => d ++ 47 :: prog)).find? ex
  | [] => by simp [drsh_resolve_walk]
  | dir :: rest => by
    simp only [drsh_resolve_walk]
    by_cases hdir : dir = []
    · subst hdir
      rw [if_pos rfl]
      cases rest with
      | nil => simp
      | cons r rs =>
        rw [drsh_resolve_walk_eq_find ex prog (r :: rs)]
        simp
    · rw [if_neg hdir, drsh_resolve_cand_eq]
      have hfil : ((dir :: rest).filter (fun d => d ≠ [])) =
          dir :: rest.filter (fun d => d ≠ []) :=
        List.filter_cons_of_pos (by simpa using hdir)
      rw [hfil, List.map_cons, List.find?_cons]
      cases hex : ex (dir ++ 47 :: prog) with
      | true => simp [hex]
      | false =>
        simp only [hex]
        cases rest with
        | nil => simp
        | cons r rs =>
          rw [drsh_resolve_walk_eq_find ex prog (r :: rs)]
          simp

/-- C5: on the POSIX family, for a program that is neither absolute nor
contains a path separator, the resolver returns the first existing
candidate `directory/P` over the non-empty `:`-separated PATH
directories in left-to-right order, and NOT_FOUND (`none`) when no
candidate exists. -/
theorem drsh_c5_resolver_path_walk (ex : ByteStr → Bool) (path prog : ByteStr)
    (habs : drsh_path_is_abs prog false = false)
    (hsep : prog.contains 47 = false) :
    drsh_env_resolve_prog_path_posix ex (some path) prog =
      (drsh_spec_path_candidates path prog).find? ex := by
  rw [drsh_env_resolve_prog_path_posix]
  simp only [habs, hsep, Bool.or_self, if_false, Bool.false_or]
  exact drsh_resolve_walk_eq_find ex prog (drsh_split_all 58 path)

/-- C5 witness: with PATH `/bin:/usr/bin` and only `/usr/bin/ls`
existing, `ls` resolves to `/usr/bin/ls`, the first existing candidate. -/
theorem drsh_c5_resolver_path_walk_witness :
    drsh_env_resolve_prog_path_posix (fun p => p == drsh_bytes "/usr/bin/ls")
        (some (drsh_bytes "/bin:/usr/bin")) (drsh_bytes "ls") =
      (drsh_spec_path_candidates (drsh_bytes "/bin:/usr/bin") (drsh_bytes "ls")).find?
        (fun p => p == drsh_bytes "/usr/bin/ls") :=
  drsh_c5_resolver_path_walk (fun p => p == drsh_bytes "/usr/bin/ls")
    (drsh_bytes "/bin:/usr/bin") (drsh_bytes "ls") (by decide) (by decide)

/-!
## Redisplay cursor bookkeeping (src/drsh.c lines 1608-1630)

The stored `n_cols_up` after one redisplay pass: the code sets
`n_cols_up = total_lines - 1` and, when `total_lines > cursor_line`,
emits that difference of cursor-up moves and subtracts it again.  All
quantities are the C `size_t`/`int` values, which the hypotheses keep in
the range where `Nat` subtraction agrees. -/

/-- The `n_cols_up` value stored by the redisplay block of
`drsh_read_line`. -/
def drsh_redisplay_n_cols_up (prompt_visual_len wb_count wb_cursor cols : Nat) : Nat :=
  let visual_size := prompt_visual_len + wb_count
  let cursor_visual_position := visual_size - (wb_count - wb_cursor)
  let total_lines := (visual_size - 1) / cols + 1
  let cursor_line := (cursor_visual_position - 1) / cols + 1
  let n0 := total_lines - 1
  if cursor_line < total_lines then n0 - (total_lines - cursor_line) else n0

/-- C8 counterexample: with a prompt of visual length 160, an empty write
buffer and 80 columns, the code stores `n_cols_up = 1` (the cursor sits
on line 2 of 2), while `total_lines - cursor_line = 0`. -/
theorem drsh_c8_counterexample :
    drsh_redisplay_n_cols_up 160 0 0 80 = 1 ∧
    ((160 + 0 - 1) / 80 + 1) - ((160 + 0 - (0 - 0) - 1) / 80 + 1) = 0 := by decide

/-- C8 (amended): after emission, `n_cols_up` equals `cursor_line - 1`
(the number of rows the cursor sits below the prompt's top row), i.e.
`(cursor_visual_position - 1) / cols`, not `total_lines - cursor_line`. -/
theorem drsh_c8_n_cols_up (pv wbc wcur cols : Nat)
    (hpv : 1 ≤ pv) (hcols : 1 ≤ cols) (hcur : wcur ≤ wbc) :
    drsh_redisplay_n_cols_up pv wbc wcur cols = (pv + wbc - (wbc - wcur) - 1) / cols := by
  simp only [drsh_redisplay_n_cols_up]
  have hdiv : (pv + wbc - (wbc - wcur) - 1) / cols ≤ (pv + wbc - 1) / cols :=
    Nat.div_le_div_right (by omega)
  generalize (pv + wbc - 1) / cols = A at hdiv ⊢
  generalize (pv + wbc - (wbc - wcur) - 1) / cols = B at hdiv ⊢
  split_ifs with h <;> omega

/-- C8 amended witness at prompt length 3, buffer length 2, cursor 1,
80 columns. -/
theorem drsh_c8_n_cols_up_witness :
    drsh_redisplay_n_cols_up 3 2 1 80 = (3 + 2 - (2 - 1) - 1) / 80 :=
  drsh_c8_n_cols_up 3 2 1 80 (by decide) (by decide) (by decide)

/-!
## Line editor state (src/drsh.c `DrshInput` and the editing commands),
## history (src/drsh.c lines 3507-3521, `drsh_hist_add`), and the input
## decoder (src/drsh.c lines 1449-1520, `drsh_rb_to_cmd`)

The editor state keeps the fields the editing commands touch: the write
buffer with its cursor, the history vector with its cursor, and the two
redisplay flags.  The out-of-scope fields (read buffer, prompt,
completion vector) do not hold write-buffer bytes.  History entries are
atoms, represented by their byte strings (C6).  `memremove`/`meminsert`
splices become `take`/`drop` splices at the same offsets. -/

structure DrshEdState where
  write_buffer : ByteStr
  write_cursor : Nat
  hist : List ByteStr
  hist_cursor : Nat
  needs_redisplay : Bool
  needs_clear_screen : Bool
deriving DecidableEq

/-- `drsh_hist_add` from src/drsh.c:3510: empty atoms return before the
cursor is touched; otherwise the cursor is set to the history length and
the atom is appended unless it is pointer-equal to the last entry. -/
def drsh_hist_add (inp : DrshEdState) (atom : ByteStr) : DrshEdState :=
  if atom.length = 0 then inp
  else if inp.hist ≠ [] ∧ inp.hist.getLast? = some atom then
    { inp with hist_cursor := inp.hist.length }
  else { inp with hist := inp.hist ++ [atom], hist_cursor := inp.hist.length + 1 }

/-- C9 counterexample: with one history entry and the history cursor at
0, `hist_add` of the empty atom leaves the state unchanged, so the
cursor is not set to the history length. -/
theorem drsh_c9_counterexample :
    drsh_hist_add ⟨[], 0, [[97]], 0, false, false⟩ [] = ⟨[], 0, [[97]], 0, false, false⟩ ∧
    (drsh_hist_add ⟨[], 0, [[97]], 0, false, false⟩ []).hist_cursor ≠
      (drsh_hist_add ⟨[], 0, [[97]], 0, false, false⟩ []).hist.length := by decide

theorem drsh_hist_add_inv (s : DrshEdState) (a : ByteStr)
    (h : (∀ x ∈ s.hist, x ≠ []) ∧ s.hist.Chain' (· ≠ ·)) :
    (∀ x ∈ (drsh_hist_add s a).hist, x ≠ []) ∧
      (drsh_hist_add s a).hist.Chain' (· ≠ ·) := by
  rw [drsh_hist_add]
  split_ifs with h1 h2
  · exact h
  · exact h
  · refine ⟨?_, ?_⟩
    · intro x hx
      rcases List.mem_append.mp hx with hx | hx
      · exact h.1 x hx
      · simp only [List.mem_singleton] at hx
        subst hx
        intro hc
        exact h1 (by rw [hc]; rfl)
    · rw [List.chain'_append]
      refine ⟨h.2, List.chain'_singleton _, ?_⟩
      intro x hx y hy
      simp only [List.head?_cons, Option.mem_def, Option.some.injEq] at hy
      subst hy
      intro hc
      refine h2 ⟨?_, ?_⟩
      · intro hnil
        rw [hnil] at hx
        simp at hx
      · rw [← hc]
        exact hx

theorem drsh_hist_build_inv : ∀ (adds : List ByteStr) (s : DrshEdState),
    (∀ x ∈ s.hist, x ≠ []) ∧ s.hist.Chain' (· ≠ ·) →
    (∀ x ∈ (adds.foldl drsh_hist_add s).hist, x ≠ []) ∧
      (adds.foldl drsh_hist_add s).hist.Chain' (· ≠ ·)
  | [], _, h => h
  | a :: as, s, h => drsh_hist_build_inv as _ (drsh_hist_add_inv s a h)

/-- C9 (amended): `hist_add` of the empty atom leaves the whole state
unchanged (in particular it does not set the history cursor); `hist_add`
of an atom equal to the last entry leaves the history unchanged and sets
the cursor to the history length; a successful add appends and sets the
cursor to the new length; and every history built by `hist_add` calls
from the empty state contains no empty entry and no two consecutive
pointer-equal entries. -/
theorem drsh_c9_hist_add (inp : DrshEdState) (a : ByteStr) (adds : List ByteStr) :
    (a = [] → drsh_hist_add inp a = inp) ∧
    (a ≠ [] → inp.hist.getLast? = some a →
      (drsh_hist_add inp a).hist = inp.hist ∧
      (drsh_hist_add inp a).hist_cursor = inp.hist.length) ∧
    (a ≠ [] → inp.hist.getLast? ≠ some a →
      (drsh_hist_add inp a).hist = inp.hist ++ [a] ∧
      (drsh_hist_add inp a).hist_cursor = inp.hist.length + 1) ∧
    ((∀ x ∈ (adds.foldl drsh_hist_add ⟨[], 0, [], 0, false, false⟩).hist, x ≠ []) ∧
      (adds.foldl drsh_hist_add ⟨[], 0, [], 0, false, false⟩).hist.Chain' (· ≠ ·)) := by
  refine ⟨?_, ?_, ?_, ?_⟩
  · intro ha
    subst ha
    simp [drsh_hist_add]
  · intro ha hlast
    have hne : inp.hist ≠ [] := by
      intro hnil
      rw [hnil] at hlast
      simp at hlast
    rw [drsh_hist_add, if_neg (by simpa using ha), if_pos ⟨hne, hlast⟩]
    exact ⟨rfl, rfl⟩
  · intro ha hlast
    rw [drsh_hist_add, if_neg (by simpa using ha), if_neg (fun hc => hlast hc.2)]
    exact ⟨rfl, rfl⟩
  · exact drsh_hist_build_inv adds _ ⟨by simp, by simp⟩

/-- C9 amended witness: adding an atom equal to the last history entry
keeps the history and sets the cursor to the history length. -/
theorem drsh_c9_hist_add_witness :
    (drsh_hist_add ⟨[], 0, [[97]], 0, false, false⟩ [97]).hist = [[97]] ∧
    (drsh_hist_add ⟨[], 0, [[97]], 0, false, false⟩ [97]).hist_cursor = 1 :=
  (drsh_c9_hist_add ⟨[], 0, [[97]], 0, false, false⟩ [97] []).2.1 (by decide) (by decide)

/-!
## C7: editing commands, the byte decoder, and the line-editor step relation

Editing commands from src/drsh.c:1905-1947 and 2305-2364.  `memremove` /
`drsh_gb_insert` splices become `take`/`drop` splices at the same
offsets (the `cursor == count` fast paths of `del_left`/`del_right`
coincide with the splice at those offsets). -/

def drsh_inp_move_home (inp : DrshEdState) : DrshEdState :=
  { inp with write_cursor := 0, needs_redisplay := true }

def drsh_inp_move_end (inp : DrshEdState) : DrshEdState :=
  { inp with write_cursor := inp.write_buffer.length, needs_redisplay := true }

def drsh_inp_move_left (inp : DrshEdState) : DrshEdState :=
  { inp with
    write_cursor := if inp.write_cursor ≠ 0 then inp.write_cursor - 1 else inp.write_cursor,
    needs_redisplay := true }

def drsh_inp_move_right (inp : DrshEdState) : DrshEdState :=
  { inp with
    write_cursor :=
      if inp.write_cursor < inp.write_buffer.length then inp.write_cursor + 1
      else inp.write_cursor,
    needs_redisplay := true }

/-- `drsh_inp_move_up` (src/drsh.c:1923): the C indexes
`hist_buffer[hist_cursor]` after the decrement, in bounds whenever the
history-cursor invariant holds; out-of-range reads are modelled by the
`getD` default. -/
def drsh_inp_move_up (inp : DrshEdState) : DrshEdState :=
  if inp.hist_cursor = 0 then inp
  else
    let hc := inp.hist_cursor - 1
    let atom := inp.hist.getD hc []
    { inp with
      hist_cursor := hc
      needs_redisplay := true
      write_buffer := atom
      write_cursor := atom.length }

def drsh_inp_move_down (inp : DrshEdState) : DrshEdState :=
  let hc := inp.hist_cursor + 1
  if inp.hist.length ≤ hc then
    { inp with
      hist_cursor := inp.hist.length
      needs_redisplay := true
      write_buffer := []
      write_cursor := 0 }
  else
    let atom := inp.hist.getD hc []
    { inp with
      hist_cursor := hc
      needs_redisplay := true
      write_buffer := atom
      write_cursor := atom.length }

def drsh_inp_del_left (inp : DrshEdState) : DrshEdState :=
  if inp.write_cursor = 0 then inp
  else
    { inp with
      write_buffer :=
        inp.write_buffer.take (inp.write_cursor - 1) ++
          inp.write_buffer.drop inp.write_cursor,
      write_cursor := inp.write_cursor - 1, needs_redisplay := true }

def drsh_inp_del_right (inp : DrshEdState) : DrshEdState :=
  if inp.write_cursor = inp.write_buffer.length then inp
  else
    { inp with
      write_buffer :=
        inp.write_buffer.take inp.write_cursor ++
          inp.write_buffer.drop (inp.write_cursor + 1),
      needs_redisplay := true }

def drsh_inp_kill_end_of_line (inp : DrshEdState) : DrshEdState :=
  if inp.write_buffer.length = inp.write_cursor then inp
  else
    { inp with
      write_buffer := inp.write_buffer.take inp.write_cursor
      needs_redisplay := true }

def drsh_inp_clear (inp : DrshEdState) : DrshEdState :=
  if inp.write_cursor = 0 ∧ inp.write_buffer.length = 0 then inp
  else { inp with write_buffer := [], write_cursor := 0, needs_redisplay := true }

def drsh_inp_input_one (inp : DrshEdState) (c : Nat) : DrshEdState :=
  { inp with
    write_buffer :=
      inp.write_buffer.take inp.write_cursor ++
        c :: inp.write_buffer.drop inp.write_cursor,
    write_cursor := inp.write_cursor + 1, needs_redisplay := true }

/-- `drsh_rb_to_cmd` (src/drsh.c:1449-1520): decodes the head of the raw
input bytes to a command (an `int`) and a consumed length, `none` for
the `return 0` paths (decoder waits for more bytes).  Bytes are
`unsigned char`, so < 256. -/
def drsh_rb_to_cmd (txt : ByteStr) : Option (Int × Nat) :=
  match txt with
  | [] => none
  | c :: rest =>
    if c < 27 then some (-(c : Int), 1)
    else if c = 127 then some (-8, 1)
    else if 27 < c then some ((c : Int), 1)
    else
      if 2 < txt.length then
        if rest.headD 0 = 91 then
          let c2 := rest.tail.headD 0
          if (48 ≤ c2 ∧ c2 ≤ 57) ∧ 3 < txt.length ∧
              rest.tail.tail.headD 0 = 126 ∧ c2 = 51 then some (-128, 4)
          else if c2 = 65 then some (-16, 3)
          else if c2 = 66 then some (-14, 3)
          else if c2 = 67 then some (-6, 3)
          else if c2 = 68 then some (-2, 3)
          else if c2 = 72 then some (-1, 3)
          else if c2 = 70 then some (-5, 3)
          else if c2 = 90 then some (-129, 3)
          else none
        else if rest.headD 0 = 79 then
          let c2 := rest.tail.headD 0
          if c2 = 72 then some (-1, 3)
          else if c2 = 70 then some (-5, 3)
          else some (-27, 1)
        else some (-27, 1)
      else some (-27, 1)

/-- The command dispatch of `drsh_read_line` (src/drsh.c:1640-1724) as a
state transformer.  ACCEPT/ENTER end the read loop (modelled by the
`accept` step of the reachability relation below); TAB, SHIFT_TAB and
ESC drive tab completion, whose write-buffer effect is the `complete`
step; the remaining control commands are no-ops.  A non-negative
command inserts the byte `(unsigned char)cmd`. -/
def drsh_apply_cmd (inp : DrshEdState) (cmd : Int) : DrshEdState :=
  if cmd < 0 then
    if cmd = -8 then drsh_inp_del_left inp
    else if cmd = -4 then
      (if inp.write_buffer.length = 0 then inp else drsh_inp_del_right inp)
    else if cmd = -128 then drsh_inp_del_right inp
    else if cmd = -6 then drsh_inp_move_right inp
    else if cmd = -2 then drsh_inp_move_left inp
    else if cmd = -16 then drsh_inp_move_up inp
    else if cmd = -14 then drsh_inp_move_down inp
    else if cmd = -1 then drsh_inp_move_home inp
    else if cmd = -5 then drsh_inp_move_end inp
    else if cmd = -3 then drsh_inp_clear inp
    else if cmd = -11 then drsh_inp_kill_end_of_line inp
    else if cmd = -12 then { inp with needs_clear_screen := true, needs_redisplay := true }
    else inp
  else drsh_inp_input_one inp (cmd.toNat % 256)

/-- ACCEPT/ENTER: `drsh_read_line` returns the buffer, the main loop
(src/drsh.c:1406-1417) atomizes it and calls `drsh_hist_add`, and the
next `drsh_read_line` clears the write buffer and cursor
(src/drsh.c:1575-1577). -/
def drsh_accept_line (inp : DrshEdState) : DrshEdState :=
  let s := drsh_hist_add inp inp.write_buffer
  { s with write_buffer := [], write_cursor := 0, needs_redisplay := true }

/-- A tab-completion replacement (src/drsh.c:2295-2303): delete `k`
bytes leftward, then insert the bytes of the chosen completion atom. -/
def drsh_apply_completion (inp : DrshEdState) (k : Nat) (txt : ByteStr) : DrshEdState :=
  txt.foldl drsh_inp_input_one (drsh_inp_del_left^[k] inp)

/-- Line-editor states reachable from the empty line, with every raw
input byte satisfying `P`.  `decode` feeds raw bytes through
`drsh_rb_to_cmd` and dispatches; `accept` is the ENTER path; `complete`
is a tab-completion replacement, whose inserted text is a filesystem
name or history atom and hence NUL-free. -/
inductive DrshEdReach (P : Nat → Prop) : DrshEdState → Prop
  | init : DrshEdReach P ⟨[], 0, [], 0, false, false⟩
  | decode (s : DrshEdState) (bs : ByteStr) (cmd : Int) (n : Nat) :
      DrshEdReach P s → (∀ b ∈ bs, b < 256 ∧ P b) →
      drsh_rb_to_cmd bs = some (cmd, n) → DrshEdReach P (drsh_apply_cmd s cmd)
  | accept (s : DrshEdState) : DrshEdReach P s → DrshEdReach P (drsh_accept_line s)
  | complete (s : DrshEdState) (k : Nat) (txt : ByteStr) :
      DrshEdReach P s → 0 ∉ txt → DrshEdReach P (drsh_apply_completion s k txt)

/-- The C7 invariant: no NUL byte in the write buffer, and none in any
history entry (history entries are re-loaded into the buffer by
MOVE_UP/MOVE_DOWN). -/
def DrshEdNoNul (s : DrshEdState) : Prop :=
  0 ∉ s.write_buffer ∧ ∀ e ∈ s.hist, 0 ∉ e

theorem drsh_not_mem_take_drop {l : ByteStr} {i j : Nat} (h : 0 ∉ l) :
    0 ∉ l.take i ++ l.drop j := by
  intro hc
  rcases List.mem_append.mp hc with hc | hc
  · exact h (List.take_subset _ _ hc)
  · exact h (List.drop_subset _ _ hc)

theorem drsh_not_mem_getD (l : List ByteStr) (i : Nat) (h : ∀ e ∈ l, 0 ∉ e) :
    0 ∉ l.getD i [] := by
  rw [List.getD_eq_getElem?_getD]
  rcases hl : l[i]? with _ | a
  · simp
  · exact h a (List.getElem?_mem hl)

theorem drsh_del_left_no_nul (s : DrshEdState) (h : DrshEdNoNul s) :
    DrshEdNoNul (drsh_inp_del_left s) := by
  rw [drsh_inp_del_left]
  split_ifs with h1
  · exact h
  · exact ⟨drsh_not_mem_take_drop h.1, h.2⟩

theorem drsh_del_right_no_nul (s : DrshEdState) (h : DrshEdNoNul s) :
    DrshEdNoNul (drsh_inp_del_right s) := by
  rw [drsh_inp_del_right]
  split_ifs with h1
  · exact h
  · exact ⟨drsh_not_mem_take_drop h.1, h.2⟩

theorem drsh_kill_no_nul (s : DrshEdState) (h : DrshEdNoNul s) :
    DrshEdNoNul (drsh_inp_kill_end_of_line s) := by
  rw [drsh_inp_kill_end_of_line]
  split_ifs with h1
  · exact h
  · exact ⟨fun hc => h.1 (List.take_subset _ _ hc), h.2⟩

theorem drsh_clear_no_nul (s : DrshEdState) (h : DrshEdNoNul s) :
    DrshEdNoNul (drsh_inp_clear s) := by
  rw [drsh_inp_clear]
  split_ifs with h1
  · exact h
  · exact ⟨by simp, h.2⟩

theorem drsh_move_up_no_nul (s : DrshEdState) (h : DrshEdNoNul s) :
    DrshEdNoNul (drsh_inp_move_up s) := by
  rw [drsh_inp_move_up]
  split_ifs with h1
  · exact h
  · exact ⟨drsh_not_mem_getD s.hist _ h.2, h.2⟩

theorem drsh_move_down_no_nul (s : DrshEdState) (h : DrshEdNoNul s) :
    DrshEdNoNul (drsh_inp_move_down s) := by
  rw [drsh_inp_move_down]
  split_ifs with h1
  · exact ⟨by simp, h.2⟩
  · exact ⟨drsh_not_mem_getD s.hist _ h.2, h.2⟩

theorem drsh_input_one_no_nul (s : DrshEdState) (c : Nat) (h : DrshEdNoNul s)
    (hc : c ≠ 0) : DrshEdNoNul (drsh_inp_input_one s c) := by
  refine ⟨?_, h.2⟩
  intro hmem
  rcases List.mem_append.mp hmem with hm | hm
  · exact h.1 (List.take_subset _ _ hm)
  · rcases List.mem_cons.mp hm with hm | hm
    · exact hc hm.symm
    · exact h.1 (List.drop_subset _ _ hm)

theorem drsh_accept_no_nul (s : DrshEdState) (h : DrshEdNoNul s) :
    DrshEdNoNul (drsh_accept_line s) := by
  refine ⟨?_, ?_⟩
  · show (0 : Nat) ∉ ([] : ByteStr)
    simp
  show ∀ e ∈ (drsh_hist_add s s.write_buffer).hist, 0 ∉ e
  rw [drsh_hist_add]
  split_ifs with h1 h2
  · exact h.2
  · exact h.2
  · intro e he
    rcases List.mem_append.mp he with he | he
    · exact h.2 e he
    · simp only [List.mem_singleton] at he
      subst he
      exact h.1

theorem drsh_apply_cmd_no_nul (s : DrshEdState) (cmd : Int)
    (h : DrshEdNoNul s) (hbyte : 0 ≤ cmd → cmd.toNat % 256 ≠ 0) :
    DrshEdNoNul (drsh_apply_cmd s cmd) := by
  by_cases hneg : cmd < 0
  · rw [drsh_apply_cmd, if_pos hneg]
    by_cases h1 : cmd = -8
    · rw [if_pos h1]
      exact drsh_del_left_no_nul s h
    rw [if_neg h1]
    by_cases h2 : cmd = -4
    · rw [if_pos h2]
      by_cases h2a : s.write_buffer.length = 0
      · rw [if_pos h2a]
        exact h
      · rw [if_neg h2a]
        exact drsh_del_right_no_nul s h
    rw [if_neg h2]
    by_cases h3 : cmd = -128
    · rw [if_pos h3]
      exact drsh_del_right_no_nul s h
    rw [if_neg h3]
    by_cases h4 : cmd = -6
    · rw [if_pos h4]
      exact h
    rw [if_neg h4]
    by_cases h5 : cmd = -2
    · rw [if_pos h5]
      exact h
    rw [if_neg h5]
    by_cases h6 : cmd = -16
    · rw [if_pos h6]
      exact drsh_move_up_no_nul s h
    rw [if_neg h6]
    by_cases h7 : cmd = -14
    · rw [if_pos h7]
      exact drsh_move_down_no_nul s h
    rw [if_neg h7]
    by_cases h8 : cmd = -1
    · rw [if_pos h8]
      exact h
    rw [if_neg h8]
    by_cases h9 : cmd = -5
    · rw [if_pos h9]
      exact h
    rw [if_neg h9]
    by_cases h10 : cmd = -3
    · rw [if_pos h10]
      exact drsh_clear_no_nul s h
    rw [if_neg h10]
    by_cases h11 : cmd = -11
    · rw [if_pos h11]
      exact drsh_kill_no_nul s h
    rw [if_neg h11]
    by_cases h12 : cmd = -12
    · rw [if_pos h12]
      exact h
    rw [if_neg h12]
    exact h
  · rw [drsh_apply_cmd, if_neg hneg]
    exact drsh_input_one_no_nul s _ h (hbyte (le_of_not_lt hneg))

/-- Outputs of the decoder whose command part is negative. -/
def DrshNegOut (o : Option (Int × Nat)) : Prop :=
  ∀ v k, o = some (v, k) → v < 0

theorem drsh_neg_out_none : DrshNegOut none :=
  fun _ _ h => Option.noConfusion h

theorem drsh_neg_out_some (v0 : Int) (k0 : Nat) (hv : v0 < 0) :
    DrshNegOut (some (v0, k0)) := by
  intro v k h
  simp only [Option.some.injEq, Prod.mk.injEq] at h
  obtain ⟨rfl, rfl⟩ := h
  exact hv

theorem drsh_neg_out_ite (p : Prop) [Decidable p] (a b : Option (Int × Nat))
    (ha : DrshNegOut a) (hb : DrshNegOut b) : DrshNegOut (if p then a else b) := by
  by_cases hp : p
  · rw [if_pos hp]
    exact ha
  · rw [if_neg hp]
    exact hb

/-- Every command decoded from an ESC-led byte sequence is negative
(all arms of the escape decoder produce command constants < 0). -/
theorem drsh_rb_to_cmd_esc_neg (rest : ByteStr) :
    DrshNegOut (drsh_rb_to_cmd (27 :: rest)) := by
  simp only [drsh_rb_to_cmd]
  rw [if_neg (by omega : ¬ (27 : Nat) < 27)]
  rw [if_neg (by omega : ¬ (27 : Nat) = 127)]
  rw [if_neg (by omega : ¬ (27 : Nat) < 27)]
  repeat' first
    | exact drsh_neg_out_none
    | exact drsh_neg_out_some _ _ (by norm_num)
    | apply drsh_neg_out_ite

theorem drsh_rb_to_cmd_nonneg (bs : ByteStr) (cmd : Int) (n : Nat)
    (hb : ∀ b ∈ bs, b < 256 ∧ b ≠ 0)
    (hc : drsh_rb_to_cmd bs = some (cmd, n)) (hpos : 0 ≤ cmd) :
    cmd.toNat % 256 ≠ 0 := by
  match bs with
  | [] => simp [drsh_rb_to_cmd] at hc
  | c :: rest =>
    have hcb := hb c (List.mem_cons_self c rest)
    by_cases h1 : c < 27
    · simp only [drsh_rb_to_cmd] at hc
      rw [if_pos h1] at hc
      simp only [Option.some.injEq, Prod.mk.injEq] at hc
      obtain ⟨rfl, rfl⟩ := hc
      omega
    by_cases h2 : c = 127
    · simp only [drsh_rb_to_cmd] at hc
      rw [if_neg h1, if_pos h2] at hc
      simp only [Option.some.injEq, Prod.mk.injEq] at hc
      obtain ⟨rfl, rfl⟩ := hc
      omega
    by_cases h3 : 27 < c
    · simp only [drsh_rb_to_cmd] at hc
      rw [if_neg h1, if_neg h2, if_pos h3] at hc
      simp only [Option.some.injEq, Prod.mk.injEq] at hc
      obtain ⟨rfl, rfl⟩ := hc
      omega
    · have hc27 : c = 27 := by omega
      subst hc27
      have := drsh_rb_to_cmd_esc_neg rest cmd n hc
      omega

theorem drsh_del_left_iter_no_nul (s : DrshEdState) (k : Nat) (h : DrshEdNoNul s) :
    DrshEdNoNul (drsh_inp_del_left^[k] s) := by
  induction k generalizing s with
  | zero => exact h
  | succ m ih =>
    rw [Function.iterate_succ_apply]
    exact ih _ (drsh_del_left_no_nul s h)

theorem drsh_foldl_input_no_nul : ∀ (txt : ByteStr) (s : DrshEdState),
    DrshEdNoNul s → 0 ∉ txt → DrshEdNoNul (txt.foldl drsh_inp_input_one s)
  | [], _, h, _ => h
  | c :: cs, s, h, hn =>
    drsh_foldl_input_no_nul cs _
      (drsh_input_one_no_nul s c h
        (fun hc => hn (by subst hc; exact List.mem_cons_self 0 cs)))
      (fun hm => hn (List.mem_cons_of_mem _ hm))

/-- C7 counterexample for the unrestricted claim: the raw input byte
0x00 decodes (src/drsh.c:1456-1458) to command `-(0) = 0`, which is not
negative, so the dispatch (src/drsh.c:1719-1723) inserts the NUL byte
into the write buffer. -/
theorem drsh_c7_counterexample :
    DrshEdReach (fun _ => True) (drsh_apply_cmd ⟨[], 0, [], 0, false, false⟩ 0) ∧
    0 ∈ (drsh_apply_cmd ⟨[], 0, [], 0, false, false⟩ 0).write_buffer := by
  constructor
  · exact DrshEdReach.decode _ [0] 0 1 DrshEdReach.init
      (by
        intro b hb
        simp only [List.mem_singleton] at hb
        subst hb
        exact ⟨by norm_num, trivial⟩)
      (by decide)
  · decide

/-- C7 (amended): in every line-editor state reachable from the empty
line by decoded raw input whose bytes are all nonzero, accepted lines,
and tab-completion replacements, the write buffer contains no 0x00
byte.  (The unrestricted claim fails: the raw byte 0x00 becomes command
0, which the dispatch inserts into the buffer.) -/
theorem drsh_c7_no_terminator (s : DrshEdState)
    (hs : DrshEdReach (fun b => b ≠ 0) s) : 0 ∉ s.write_buffer := by
  suffices h : DrshEdNoNul s from h.1
  induction hs with
  | init => exact ⟨by simp, by simp⟩
  | decode s' bs cmd n hr hb hc ih =>
    exact drsh_apply_cmd_no_nul s' cmd ih
      (fun hpos => drsh_rb_to_cmd_nonneg bs cmd n hb hc hpos)
  | accept s' hr ih => exact drsh_accept_no_nul s' ih
  | complete s' k txt hr hn ih =>
    exact drsh_foldl_input_no_nul txt _ (drsh_del_left_iter_no_nul s' k ih) hn

/-- C7 amended witness: after typing the byte `a` (0x61) the buffer has
no NUL byte. -/
theorem drsh_c7_no_terminator_witness :
    0 ∉ (drsh_apply_cmd ⟨[], 0, [], 0, false, false⟩ 97).write_buffer :=
  drsh_c7_no_terminator _ (DrshEdReach.decode _ [97] 97 1 DrshEdReach.init
    (by
      intro b hb
      simp only [List.mem_singleton] at hb
      subst hb
      exact ⟨by norm_num, by norm_num⟩)
    (by decide))
